import Mathlib

/-!
# Verification of `PrecomputeLRUCache` (src/veil/zerocoin/lrucache.cpp)

Shallow embedding of the two-tier write-back LRU cache.

* A `std::map<Key, T>` is an association list holding at most one entry per key
  (`StdMap`).  `insert` keeps an existing entry, `operator[]=` (`assign`)
  overwrites it, `at` fails on a missing key.
* The `std::list` of `(hash, data)` pairs is a list of nodes, head = `begin()`.
  Every node carries an identity `id` (its address); a list iterator is the
  identity of the node it designates, so iterators stay valid across `splice`.
* Using an iterator whose node is gone, `--end()` / `back()` on an empty list
  and `at` on a missing key have no defined result in C++; the embedding
  returns `none` there, so every operation returns an `Option`.
* `PRECOMPUTE_LRU_CACHE_SIZE` (declared in a header) is a parameter.
* The conversions `CoinWitnessData(CoinWitnessCacheData)` and
  `CoinWitnessCacheData(CoinWitnessData*)` (declared in a header) are the
  parameters `toData` and `toCache`; the default-constructed
  `CoinWitnessData()` returned on a miss is the result `none`.
* `Size()` and `DirtyCacheSize()` are natural numbers (the C++ narrowing of
  `size_t` to `int` is not modelled).
-/

set_option linter.unusedSectionVars false

namespace Veil

/-! ## `std::map` -/

namespace StdMap

variable {K A : Type} [DecidableEq K]

/-- Lookup, the common core of `std::map::find`, `count` and `at`. -/
def find (k : K) : List (K × A) → Option A
  | [] => none
  | e :: m => if e.1 = k then some e.2 else find k m

/-- Number of entries with key `k`, as `std::map::count`. -/
def count (k : K) (m : List (K × A)) : Nat :=
  if (find k m).isSome then 1 else 0

/-- Removal by key, as `std::map::erase(key)`. -/
def erase (k : K) (m : List (K × A)) : List (K × A) :=
  m.filter (fun e => decide (e.1 ≠ k))

/-- Insertion that keeps an already present entry, as `std::map::insert`. -/
def insert (k : K) (a : A) (m : List (K × A)) : List (K × A) :=
  match find k m with
  | some _ => m
  | none => (k, a) :: m

/-- Overwriting store, as `m[k] = a`. -/
def assign (k : K) (a : A) (m : List (K × A)) : List (K × A) :=
  (k, a) :: erase k m

/-- Number of entries, as `std::map::size`. -/
def size (m : List (K × A)) : Nat := m.length

end StdMap

/-! ## `std::list` with stable iterators -/

/-- One node of `cache_list`: the stored pair and the identity of the node. -/
structure Node (K V : Type) where
  id : Nat
  first : K
  second : V
deriving DecidableEq

namespace StdList

variable {K V : Type}

/-- Identity given to a newly allocated node: different from every live node. -/
def freshId (l : List (Node K V)) : Nat :=
  (l.map Node.id).foldr max 0 + 1

/-- The list after `push_front(make_pair(k, v))`; the new node is `begin()`. -/
def push_front (k : K) (v : V) (l : List (Node K V)) : List (Node K V) :=
  ⟨freshId l, k, v⟩ :: l

/-- Dereference of the iterator `it`. -/
def deref (it : Nat) (l : List (Node K V)) : Option (Node K V) :=
  l.find? (fun n => decide (n.id = it))

/-- The list without the node designated by `it`. -/
def unlink (it : Nat) (l : List (Node K V)) : List (Node K V) :=
  l.filter (fun n => decide (n.id ≠ it))

/-- Result of `l.erase(it)`. -/
def erase (it : Nat) (l : List (Node K V)) : Option (List (Node K V)) :=
  match deref it l with
  | some _ => some (unlink it l)
  | none => none

/-- Result of `l.splice(l.begin(), l, it)`: the node of `it` moves to the front. -/
def splice_front (it : Nat) (l : List (Node K V)) : Option (List (Node K V)) :=
  match deref it l with
  | some n => some (n :: unlink it l)
  | none => none

/-- Result of `l.begin()->second = v`. -/
def set_front (v : V) : List (Node K V) → Option (List (Node K V))
  | [] => none
  | n :: t => some ({ n with second := v } :: t)

end StdList

/-! ## The cache object -/

/-- The three data members of `PrecomputeLRUCache`. -/
structure PrecomputeLRUCache (K V : Type) where
  cache_list : List (Node K V)
  mapCacheLocation : List (K × Nat)
  mapDirtyWitnessData : List (K × V)
deriving DecidableEq

namespace PrecomputeLRUCache

variable {K V W : Type} [DecidableEq K]

/-- The state `Clear()` produces; the constructor only calls `Clear()`. -/
def Clear (_s : PrecomputeLRUCache K V) : PrecomputeLRUCache K V :=
  { cache_list := [], mapCacheLocation := [], mapDirtyWitnessData := [] }

/-- The freshly constructed cache. -/
def empty : PrecomputeLRUCache K V :=
  Clear { cache_list := [], mapCacheLocation := [], mapDirtyWitnessData := [] }

/-- Embedding of `Size()`. -/
def Size (s : PrecomputeLRUCache K V) : Nat :=
  StdMap.size s.mapCacheLocation

/-- Embedding of `DirtyCacheSize()`. -/
def DirtyCacheSize (s : PrecomputeLRUCache K V) : Nat :=
  StdMap.size s.mapDirtyWitnessData

/-- Embedding of `Contains(hash)`. -/
def Contains (hash : K) (s : PrecomputeLRUCache K V) : Bool :=
  decide (StdMap.count hash s.mapCacheLocation > 0) ||
    decide (StdMap.count hash s.mapDirtyWitnessData > 0)

/-- Embedding of `MoveLastToDirtyIfFull()`. -/
def MoveLastToDirtyIfFull (PRECOMPUTE_LRU_CACHE_SIZE : Nat)
    (s : PrecomputeLRUCache K V) : Option (PrecomputeLRUCache K V) :=
  if StdMap.size s.mapCacheLocation > PRECOMPUTE_LRU_CACHE_SIZE then
    match s.cache_list.getLast? with
    | none => none
    | some last =>
      some { cache_list := s.cache_list.dropLast
             mapCacheLocation := StdMap.erase last.first s.mapCacheLocation
             mapDirtyWitnessData :=
               StdMap.assign last.first last.second s.mapDirtyWitnessData }
  else some s

/-- Embedding of `AddNew(hash, data)`. -/
def AddNew (PRECOMPUTE_LRU_CACHE_SIZE : Nat) (hash : K) (data : V)
    (s : PrecomputeLRUCache K V) : Option (PrecomputeLRUCache K V) :=
  let s1 : PrecomputeLRUCache K V :=
    { cache_list := StdList.push_front hash data s.cache_list
      mapCacheLocation :=
        StdMap.insert hash (StdList.freshId s.cache_list) s.mapCacheLocation
      mapDirtyWitnessData := s.mapDirtyWitnessData }
  match MoveLastToDirtyIfFull PRECOMPUTE_LRU_CACHE_SIZE s1 with
  | none => none
  | some s2 =>
    some { s2 with mapDirtyWitnessData := StdMap.erase hash s2.mapDirtyWitnessData }

/-- Embedding of `MoveDirtyToLRU(hash)`. -/
def MoveDirtyToLRU (PRECOMPUTE_LRU_CACHE_SIZE : Nat) (toData : V → W) (toCache : W → V)
    (hash : K) (s : PrecomputeLRUCache K V) : Option (PrecomputeLRUCache K V) :=
  match StdMap.find hash s.mapDirtyWitnessData with
  | none => none
  | some d =>
    let data := toData d
    let cachedata := toCache data
    AddNew PRECOMPUTE_LRU_CACHE_SIZE hash cachedata s

/-- Embedding of `GetWitnessData(hash)`: the returned value (`none` for the
default-constructed result) and the new state. -/
def GetWitnessData (PRECOMPUTE_LRU_CACHE_SIZE : Nat) (toData : V → W) (toCache : W → V)
    (hash : K) (s : PrecomputeLRUCache K V) :
    Option (Option W × PrecomputeLRUCache K V) :=
  let promoted :=
    if StdMap.count hash s.mapDirtyWitnessData ≠ 0 then
      MoveDirtyToLRU PRECOMPUTE_LRU_CACHE_SIZE toData toCache hash s
    else some s
  match promoted with
  | none => none
  | some s1 =>
    match StdMap.find hash s1.mapCacheLocation with
    | some it =>
      match StdList.splice_front it s1.cache_list with
      | none => none
      | some l =>
        match StdList.deref it l with
        | none => none
        | some n => some (some (toData n.second), { s1 with cache_list := l })
    | none => some (none, s1)

/-- Embedding of `Remove(hash)`. -/
def Remove (hash : K) (s : PrecomputeLRUCache K V) : Option (PrecomputeLRUCache K V) :=
  let erased :=
    match StdMap.find hash s.mapCacheLocation with
    | some it =>
      match StdList.erase it s.cache_list with
      | none => none
      | some l =>
        some { s with cache_list := l
                      mapCacheLocation := StdMap.erase hash s.mapCacheLocation }
    | none => some s
  match erased with
  | none => none
  | some s1 =>
    some { s1 with mapDirtyWitnessData := StdMap.erase hash s1.mapDirtyWitnessData }

/-- Embedding of `AddToCache(hash, serialData)`. -/
def AddToCache (PRECOMPUTE_LRU_CACHE_SIZE : Nat) (hash : K) (serialData : V)
    (s : PrecomputeLRUCache K V) : Option (PrecomputeLRUCache K V) :=
  let added :=
    match StdMap.find hash s.mapCacheLocation with
    | some it =>
      match StdList.splice_front it s.cache_list with
      | none => none
      | some l =>
        match StdList.set_front serialData l with
        | none => none
        | some l1 => some { s with cache_list := l1 }
    | none => AddNew PRECOMPUTE_LRU_CACHE_SIZE hash serialData s
  match added with
  | none => none
  | some s1 =>
    MoveLastToDirtyIfFull PRECOMPUTE_LRU_CACHE_SIZE
      { s1 with mapDirtyWitnessData := StdMap.erase hash s1.mapDirtyWitnessData }

/-- Embedding of `FlushToDisk(pprecomputeDB)`: the database is the sequence of
`WritePrecompute(key, value)` calls it received, oldest first. -/
def FlushToDisk (s : PrecomputeLRUCache K V) (db : List (K × V)) :
    PrecomputeLRUCache K V × List (K × V) :=
  let db1 := db ++ s.mapDirtyWitnessData
  let s1 := { s with mapDirtyWitnessData := [] }
  (s1, db1 ++ s1.cache_list.map (fun item => (item.first, item.second)))

end PrecomputeLRUCache

/-! ## Sequences of public operations -/

/-- One call of the public interface. -/
inductive Op (K V : Type) where
  | put (hash : K) (data : V)
  | get (hash : K)
  | remove (hash : K)
  | flush
  | clear
deriving DecidableEq

namespace Op

variable {K V W : Type} [DecidableEq K]

/-- The calls a key-value map also has: `put`, `get`, `remove`. -/
def isMapOp : Op K V → Bool
  | put _ _ => true
  | get _ => true
  | remove _ => true
  | flush => false
  | clear => false

/-- State after one call (`none`: the call has no defined behaviour). -/
def apply (cap : Nat) (toData : V → W) (toCache : W → V) :
    Op K V → PrecomputeLRUCache K V → Option (PrecomputeLRUCache K V)
  | put hash data, s => PrecomputeLRUCache.AddToCache cap hash data s
  | get hash, s =>
    match PrecomputeLRUCache.GetWitnessData cap toData toCache hash s with
    | none => none
    | some r => some r.2
  | remove hash, s => PrecomputeLRUCache.Remove hash s
  | flush, s => some (PrecomputeLRUCache.FlushToDisk s []).1
  | clear, s => some (PrecomputeLRUCache.Clear s)

/-- State after a sequence of calls, first call first. -/
def run (cap : Nat) (toData : V → W) (toCache : W → V) :
    List (Op K V) → PrecomputeLRUCache K V → Option (PrecomputeLRUCache K V)
  | [], s => some s
  | op :: ops, s =>
    match apply cap toData toCache op s with
    | none => none
    | some s1 => run cap toData toCache ops s1

end Op

/-! ## Invariants -/

namespace PrecomputeLRUCache

variable {K V : Type} [DecidableEq K]

/-- The `(key, value)` pairs of the recency list, most recently used first. -/
def entries (s : PrecomputeLRUCache K V) : List (K × V) :=
  s.cache_list.map (fun n => (n.first, n.second))

/-- The keys of the recency list, most recently used first. -/
def hotKeys (s : PrecomputeLRUCache K V) : List K :=
  s.cache_list.map Node.first

/-- The state is the image of a C++ object: distinct list nodes have distinct
identities and each `std::map` holds one entry per key. -/
def WellFormed (s : PrecomputeLRUCache K V) : Prop :=
  (s.cache_list.map Node.id).Nodup ∧
  (s.mapCacheLocation.map Prod.fst).Nodup ∧
  (s.mapDirtyWitnessData.map Prod.fst).Nodup

/-- Hot index / recency list bijection: no key twice in the list, and the
index entries are exactly the pairs (key of a node, identity of that node). -/
def Bijection (s : PrecomputeLRUCache K V) : Prop :=
  (s.cache_list.map Node.first).Nodup ∧
  s.mapCacheLocation.Perm (s.cache_list.map (fun n => (n.first, n.id)))

/-- Tier disjointness: no key of the hot index is a key of the dirty index. -/
def TierDisjoint (s : PrecomputeLRUCache K V) : Prop :=
  ∀ k ∈ s.mapCacheLocation.map Prod.fst, k ∉ s.mapDirtyWitnessData.map Prod.fst

/-- The invariants of the cache for capacity `cap`. -/
def Inv (cap : Nat) (s : PrecomputeLRUCache K V) : Prop :=
  WellFormed s ∧ Bijection s ∧ TierDisjoint s ∧ Size s ≤ cap

instance (s : PrecomputeLRUCache K V) : Decidable (WellFormed s) := by
  unfold WellFormed; infer_instance

instance (s : PrecomputeLRUCache K V) : Decidable (Bijection s) := by
  unfold Bijection; infer_instance

instance (s : PrecomputeLRUCache K V) : Decidable (TierDisjoint s) := by
  unfold TierDisjoint; infer_instance

instance (cap : Nat) (s : PrecomputeLRUCache K V) : Decidable (Inv cap s) := by
  unfold Inv; infer_instance

/-- Value the cache holds for `k`: the hot entry if there is one, else the
dirty entry. -/
def lookup (k : K) (s : PrecomputeLRUCache K V) : Option V :=
  match StdMap.find k (entries s) with
  | some v => some v
  | none => StdMap.find k s.mapDirtyWitnessData

end PrecomputeLRUCache

/-! ## The plain key-value map the cache is compared with -/

namespace SpecMap

variable {K V : Type} [DecidableEq K]

/-- One call on a plain map: `put` inserts or overwrites, `remove` erases,
`get` is a lookup without change (`clear` empties, `flush` changes nothing). -/
def step : Op K V → (K → Option V) → (K → Option V)
  | Op.put k v, m => fun x => if x = k then some v else m x
  | Op.get _, m => m
  | Op.remove k, m => fun x => if x = k then none else m x
  | Op.flush, m => m
  | Op.clear, _ => fun _ => none

/-- The plain map after a sequence of calls on the empty map. -/
def run : List (Op K V) → (K → Option V) → (K → Option V)
  | [], m => m
  | op :: ops, m => run ops (step op m)

end SpecMap

/-! ## Recency order -/

/-- Reading the keys from the most recently used end, `a` is met before `b`
(or neither is met): `b` can only occur behind an occurrence of `a`. -/
def Precedes {K : Type} (a b : K) : List K → Prop
  | [] => True
  | x :: t => x = a ∨ (x ≠ b ∧ Precedes a b t)

/-! ## The recency rule of the specification -/

namespace SpecRecency

/-- Keys of the hot tier after `put(k)`, as the specification words it: `k`
moves to the front (or is pushed there), and when more than `cap` keys are
held the tail is dropped. -/
def put {K : Type} [DecidableEq K] (cap : Nat) (ks : List K) (k : K) : List K :=
  (k :: ks.filter (fun x => decide (x ≠ k))).take cap

end SpecRecency

/-! ## Basic facts about the `std::map` embedding -/

namespace StdMap

variable {K A : Type} [DecidableEq K]

theorem find_eq_none_iff (k : K) (m : List (K × A)) :
    find k m = none ↔ k ∉ m.map Prod.fst := by
  induction m with
  | nil => simp [find]
  | cons e m ih =>
    by_cases h : e.1 = k
    · simp [find, h]
    · have h2 : ¬ k = e.1 := fun h3 => h h3.symm
      simp [find, h, h2, ih]

theorem mem_of_find_eq_some {k : K} {a : A} {m : List (K × A)}
    (h : find k m = some a) : (k, a) ∈ m := by
  induction m with
  | nil => simp [find] at h
  | cons e m ih =>
    by_cases h1 : e.1 = k
    · simp [find, h1] at h
      subst h; subst h1; simp
    · simp [find, h1] at h
      exact List.mem_cons_of_mem _ (ih h)

theorem find_eq_some_of_mem {k : K} {a : A} {m : List (K × A)}
    (hnd : (m.map Prod.fst).Nodup) (h : (k, a) ∈ m) : find k m = some a := by
  induction m with
  | nil => simp at h
  | cons e m ih =>
    simp only [List.map_cons, List.nodup_cons] at hnd
    rcases List.mem_cons.1 h with h1 | h1
    · subst h1; simp [find]
    · have hne : e.1 ≠ k := by
        intro he
        apply hnd.1
        rw [he]
        exact List.mem_map.2 ⟨(k, a), h1, rfl⟩
      simp [find, hne, ih hnd.2 h1]

theorem find_perm {m1 m2 : List (K × A)} (hp : m1.Perm m2)
    (hnd : (m1.map Prod.fst).Nodup) (k : K) : find k m1 = find k m2 := by
  have hnd2 : (m2.map Prod.fst).Nodup := (hp.map Prod.fst).nodup_iff.1 hnd
  cases h : find k m2 with
  | none =>
    rw [find_eq_none_iff] at h ⊢
    intro hk
    exact h ((hp.map Prod.fst).mem_iff.1 hk)
  | some a =>
    exact find_eq_some_of_mem hnd (hp.mem_iff.2 (mem_of_find_eq_some h))

theorem find_erase_self (k : K) (m : List (K × A)) : find k (erase k m) = none := by
  rw [find_eq_none_iff]
  simp [erase, List.mem_map, List.mem_filter]

theorem erase_cons_self (e : K × A) (m : List (K × A)) :
    erase e.1 (e :: m) = erase e.1 m := by
  simp [erase]

theorem erase_cons_ne {k : K} {e : K × A} (h : e.1 ≠ k) (m : List (K × A)) :
    erase k (e :: m) = e :: erase k m := by
  simp [erase, h]

theorem find_erase_ne {k x : K} (h : x ≠ k) (m : List (K × A)) :
    find x (erase k m) = find x m := by
  induction m with
  | nil => simp [erase, find]
  | cons e m ih =>
    by_cases h1 : e.1 = k
    · have h2 : e.1 ≠ x := by rw [h1]; exact fun h3 => h h3.symm
      rw [← h1, erase_cons_self, h1, ih]
      simp [find, h2]
    · rw [erase_cons_ne h1]
      by_cases h2 : e.1 = x
      · simp [find, h2]
      · simp [find, h2, ih]

theorem erase_eq_self {k : K} {m : List (K × A)} (h : k ∉ m.map Prod.fst) :
    erase k m = m := by
  unfold erase
  rw [List.filter_eq_self]
  intro e he
  simp only [decide_eq_true_eq]
  intro hk
  exact h (List.mem_map.2 ⟨e, he, hk⟩)

theorem keys_erase (k : K) (m : List (K × A)) :
    (erase k m).map Prod.fst = (m.map Prod.fst).filter (fun x => decide (x ≠ k)) := by
  unfold erase
  rw [List.filter_map]
  rfl

theorem nodup_erase (k : K) {m : List (K × A)} (h : (m.map Prod.fst).Nodup) :
    ((erase k m).map Prod.fst).Nodup := by
  rw [keys_erase]
  exact h.filter _

theorem not_mem_keys_erase (k : K) (m : List (K × A)) :
    k ∉ (erase k m).map Prod.fst := by
  rw [keys_erase]
  simp [List.mem_filter]

theorem mem_keys_erase {k x : K} {m : List (K × A)} :
    x ∈ (erase k m).map Prod.fst ↔ x ∈ m.map Prod.fst ∧ x ≠ k := by
  rw [keys_erase]
  simp [List.mem_filter]

theorem erase_comm (k x : K) (m : List (K × A)) :
    erase k (erase x m) = erase x (erase k m) := by
  unfold erase
  rw [List.filter_filter, List.filter_filter]
  congr 1
  funext e
  exact Bool.and_comm _ _

theorem erase_idem (k : K) (m : List (K × A)) : erase k (erase k m) = erase k m :=
  erase_eq_self (not_mem_keys_erase k m)

theorem find_cons (x : K) (e : K × A) (m : List (K × A)) :
    find x (e :: m) = if e.1 = x then some e.2 else find x m := rfl

theorem find_erase (x k : K) (m : List (K × A)) :
    find x (erase k m) = if x = k then none else find x m := by
  by_cases h : x = k
  · rw [if_pos h, h]
    exact find_erase_self k m
  · rw [if_neg h]
    exact find_erase_ne h m

theorem find_concat (x : K) (e : K × A) (m : List (K × A)) :
    find x (m ++ [e]) =
      match find x m with
      | some a => some a
      | none => if e.1 = x then some e.2 else none := by
  induction m with
  | nil => simp [find]
  | cons c m ih =>
    by_cases h : c.1 = x
    · simp [find, h]
    · simp only [List.cons_append, find, h, if_false]
      exact ih

theorem length_erase_of_mem {k : K} {m : List (K × A)} (hnd : (m.map Prod.fst).Nodup)
    (hk : k ∈ m.map Prod.fst) : (erase k m).length + 1 = m.length := by
  induction m with
  | nil => simp at hk
  | cons e m ih =>
    simp only [List.map_cons, List.nodup_cons] at hnd
    by_cases h : e.1 = k
    · subst h
      rw [erase_cons_self, erase_eq_self hnd.1]
      rfl
    · rw [erase_cons_ne h]
      simp only [List.map_cons, List.mem_cons] at hk
      rcases hk with hk | hk
      · exact absurd hk.symm h
      · simp only [List.length_cons]
        rw [ih hnd.2 hk]

theorem count_ne_zero_iff (k : K) (m : List (K × A)) :
    count k m ≠ 0 ↔ k ∈ m.map Prod.fst := by
  unfold count
  cases h : find k m with
  | none => simpa using (find_eq_none_iff k m).1 h
  | some a =>
    have : k ∈ m.map Prod.fst := List.mem_map.2 ⟨(k, a), mem_of_find_eq_some h, rfl⟩
    simpa using this

end StdMap

/-! ## Basic facts about the `std::list` embedding -/

namespace StdList

variable {K V : Type}

theorem id_lt_freshId {l : List (Node K V)} {n : Node K V} (h : n ∈ l) :
    n.id < freshId l := by
  unfold freshId
  induction l with
  | nil => simp at h
  | cons m l ih =>
    simp only [List.map_cons, List.foldr_cons]
    rcases List.mem_cons.1 h with h1 | h1
    · subst h1
      omega
    · have := ih h1
      omega

theorem freshId_not_mem (l : List (Node K V)) : freshId l ∉ l.map Node.id := by
  intro h
  obtain ⟨n, hn, he⟩ := List.mem_map.1 h
  have := id_lt_freshId hn
  omega

theorem deref_of_mem {l : List (Node K V)} {n : Node K V}
    (hnd : (l.map Node.id).Nodup) (h : n ∈ l) : deref n.id l = some n := by
  unfold deref
  induction l with
  | nil => simp at h
  | cons m l ih =>
    simp only [List.map_cons, List.nodup_cons] at hnd
    rcases List.mem_cons.1 h with h1 | h1
    · subst h1
      simp
    · have hne : m.id ≠ n.id := by
        intro he
        apply hnd.1
        rw [he]
        exact List.mem_map.2 ⟨n, h1, rfl⟩
      rw [List.find?_cons_of_neg _ (by simpa using hne)]
      exact ih hnd.2 h1

theorem deref_eq_some {l : List (Node K V)} {n : Node K V} {it : Nat}
    (h : deref it l = some n) : n ∈ l ∧ n.id = it := by
  unfold deref at h
  have h1 := List.find?_some h
  have h2 := List.mem_of_find?_eq_some h
  exact ⟨h2, by simpa using h1⟩

theorem unlink_eq_filter_first [DecidableEq K] {l : List (Node K V)} {n : Node K V}
    (hid : (l.map Node.id).Nodup) (hk : (l.map Node.first).Nodup) (h : n ∈ l) :
    unlink n.id l = l.filter (fun m => decide (m.first ≠ n.first)) := by
  unfold unlink
  apply List.filter_congr
  intro m hm
  have h1 : m.id = n.id → m = n := List.inj_on_of_nodup_map hid hm h
  have h2 : m.first = n.first → m = n := List.inj_on_of_nodup_map hk hm h
  by_cases he : m = n
  · subst he
    simp
  · have h3 : m.id ≠ n.id := fun h => he (h1 h)
    have h4 : m.first ≠ n.first := fun h => he (h2 h)
    simp [h3, h4]

theorem perm_cons_unlink {l : List (Node K V)} {n : Node K V}
    (hid : (l.map Node.id).Nodup) (h : n ∈ l) : (n :: unlink n.id l).Perm l := by
  unfold unlink
  induction l with
  | nil => simp at h
  | cons m l ih =>
    simp only [List.map_cons, List.nodup_cons] at hid
    rcases List.mem_cons.1 h with h1 | h1
    · subst h1
      have : (n :: l).filter (fun m => decide (m.id ≠ n.id)) = l := by
        rw [List.filter_cons_of_neg (by simp), List.filter_eq_self]
        intro a ha
        simp only [decide_eq_true_eq]
        intro he
        exact hid.1 (he ▸ List.mem_map.2 ⟨a, ha, rfl⟩)
      rw [this]
    · have hne : m.id ≠ n.id := by
        intro he
        apply hid.1
        rw [he]
        exact List.mem_map.2 ⟨n, h1, rfl⟩
      rw [List.filter_cons_of_pos (by simpa using hne)]
      exact (List.Perm.swap m n _).trans ((ih hid.2 h1).cons m)

theorem unlink_head {n : Node K V} {t : List (Node K V)}
    (hid : ((n :: t).map Node.id).Nodup) : unlink n.id (n :: t) = t := by
  simp only [List.map_cons, List.nodup_cons] at hid
  unfold unlink
  rw [List.filter_cons_of_neg (by simp), List.filter_eq_self]
  intro a ha
  simp only [decide_eq_true_eq]
  intro he
  exact hid.1 (he ▸ List.mem_map.2 ⟨a, ha, rfl⟩)

theorem mem_unlink {l : List (Node K V)} {m : Node K V} {it : Nat} :
    m ∈ unlink it l ↔ m ∈ l ∧ m.id ≠ it := by
  simp [unlink, List.mem_filter]

end StdList

/-! ## Structural facts: well-formedness and the list/index bijection -/

namespace PrecomputeLRUCache

variable {K V W : Type} [DecidableEq K]

theorem size_eq_length {s : PrecomputeLRUCache K V} (hb : Bijection s) :
    Size s = s.cache_list.length := by
  unfold Size StdMap.size
  rw [hb.2.length_eq, List.length_map]

theorem keys_loc_perm {s : PrecomputeLRUCache K V} (hb : Bijection s) :
    (s.mapCacheLocation.map Prod.fst).Perm (hotKeys s) := by
  have h := hb.2.map Prod.fst
  rw [List.map_map] at h
  exact h

theorem mem_keys_loc_iff {s : PrecomputeLRUCache K V} (hb : Bijection s) (k : K) :
    k ∈ s.mapCacheLocation.map Prod.fst ↔ k ∈ hotKeys s :=
  (keys_loc_perm hb).mem_iff

theorem find_loc_eq_none_iff {s : PrecomputeLRUCache K V} (hb : Bijection s) (k : K) :
    StdMap.find k s.mapCacheLocation = none ↔ k ∉ hotKeys s := by
  rw [StdMap.find_eq_none_iff, mem_keys_loc_iff hb]

theorem find_loc_eq_some_iff {s : PrecomputeLRUCache K V} (hw : WellFormed s)
    (hb : Bijection s) (k : K) (it : Nat) :
    StdMap.find k s.mapCacheLocation = some it ↔
      ∃ n ∈ s.cache_list, n.first = k ∧ n.id = it := by
  constructor
  · intro h
    have h1 := hb.2.mem_iff.1 (StdMap.mem_of_find_eq_some h)
    obtain ⟨n, hn, he⟩ := List.mem_map.1 h1
    simp only [Prod.mk.injEq] at he
    exact ⟨n, hn, he.1, he.2⟩
  · rintro ⟨n, hn, h1, h2⟩
    apply StdMap.find_eq_some_of_mem hw.2.1
    apply hb.2.mem_iff.2
    exact List.mem_map.2 ⟨n, hn, by rw [h1, h2]⟩

theorem find_entries_of_mem {s : PrecomputeLRUCache K V} (hb : Bijection s)
    {n : Node K V} (hn : n ∈ s.cache_list) :
    StdMap.find n.first (entries s) = some n.second := by
  apply StdMap.find_eq_some_of_mem
  · unfold entries
    rw [List.map_map]
    exact hb.1
  · exact List.mem_map.2 ⟨n, hn, rfl⟩

theorem find_entries_eq_none_iff (s : PrecomputeLRUCache K V) (k : K) :
    StdMap.find k (entries s) = none ↔ k ∉ hotKeys s := by
  rw [StdMap.find_eq_none_iff]
  unfold entries hotKeys
  rw [List.map_map]
  rfl

/-- Changing the list to one with the same (key, identity) pairs, in any order,
keeps well-formedness and the bijection. -/
theorem core_of_perm {s : PrecomputeLRUCache K V} (hw : WellFormed s) (hb : Bijection s)
    {l : List (Node K V)} {d : List (K × V)}
    (hp : (l.map (fun n => (n.first, n.id))).Perm
      (s.cache_list.map (fun n => (n.first, n.id))))
    (hd : (d.map Prod.fst).Nodup) :
    WellFormed (mk l s.mapCacheLocation d) ∧ Bijection (mk l s.mapCacheLocation d) := by
  have hid : (l.map Node.id).Perm (s.cache_list.map Node.id) := by
    have h := hp.map Prod.snd
    simpa [List.map_map, Function.comp_def] using h
  have hk : (l.map Node.first).Perm (s.cache_list.map Node.first) := by
    have h := hp.map Prod.fst
    simpa [List.map_map, Function.comp_def] using h
  exact ⟨⟨hid.nodup_iff.2 hw.1, hw.2.1, hd⟩, hk.nodup_iff.2 hb.1, hb.2.trans hp.symm⟩

theorem core_push {s : PrecomputeLRUCache K V} (hw : WellFormed s) (hb : Bijection s)
    {k : K} (hk : k ∉ hotKeys s) (v : V) {d : List (K × V)} (hd : (d.map Prod.fst).Nodup) :
    WellFormed (mk (StdList.push_front k v s.cache_list)
        ((k, StdList.freshId s.cache_list) :: s.mapCacheLocation) d) ∧
      Bijection (mk (StdList.push_front k v s.cache_list)
        ((k, StdList.freshId s.cache_list) :: s.mapCacheLocation) d) := by
  refine ⟨⟨?_, ?_, hd⟩, ?_, ?_⟩
  · simp only [StdList.push_front, List.map_cons, List.nodup_cons]
    exact ⟨StdList.freshId_not_mem _, hw.1⟩
  · simp only [List.map_cons, List.nodup_cons]
    exact ⟨fun h => hk ((mem_keys_loc_iff hb k).1 h), hw.2.1⟩
  · simp only [StdList.push_front, List.map_cons, List.nodup_cons]
    exact ⟨hk, hb.1⟩
  · simp only [StdList.push_front, List.map_cons]
    exact hb.2.cons _

theorem core_evict {s : PrecomputeLRUCache K V} (hw : WellFormed s) (hb : Bijection s)
    {init : List (Node K V)} {last : Node K V} (hl : s.cache_list = init ++ [last]) :
    WellFormed (mk init (StdMap.erase last.first s.mapCacheLocation)
        (StdMap.assign last.first last.second s.mapDirtyWitnessData)) ∧
      Bijection (mk init (StdMap.erase last.first s.mapCacheLocation)
        (StdMap.assign last.first last.second s.mapDirtyWitnessData)) := by
  have hid := hw.1
  have hk := hb.1
  have hp := hb.2
  rw [hl] at hid hk hp
  simp only [List.map_append, List.map_cons, List.map_nil] at hid hk hp
  have hk1 := List.nodup_append.1 hk
  have hid1 := List.nodup_append.1 hid
  refine ⟨⟨hid1.1, StdMap.nodup_erase _ hw.2.1, ?_⟩, hk1.1, ?_⟩
  · simp only [StdMap.assign, List.map_cons, List.nodup_cons]
    exact ⟨StdMap.not_mem_keys_erase _ _, StdMap.nodup_erase _ hw.2.2⟩
  · have h1 := hp.filter (fun e => decide (e.1 ≠ last.first))
    rw [List.filter_append] at h1
    have h2 : (List.map (fun n => (n.first, n.id)) init).filter
        (fun e => decide (e.1 ≠ last.first)) = List.map (fun n => (n.first, n.id)) init := by
      rw [List.filter_eq_self]
      intro e he
      obtain ⟨n, hn, rfl⟩ := List.mem_map.1 he
      simp only [decide_eq_true_eq]
      intro hc
      exact hk1.2.2 (List.mem_map.2 ⟨n, hn, rfl⟩) (by simp [hc])
    rw [h2] at h1
    simpa [StdMap.erase] using h1

theorem core_remove {s : PrecomputeLRUCache K V} (hw : WellFormed s) (hb : Bijection s)
    {n : Node K V} (hn : n ∈ s.cache_list) {d : List (K × V)}
    (hd : (d.map Prod.fst).Nodup) :
    WellFormed (mk (StdList.unlink n.id s.cache_list)
        (StdMap.erase n.first s.mapCacheLocation) d) ∧
      Bijection (mk (StdList.unlink n.id s.cache_list)
        (StdMap.erase n.first s.mapCacheLocation) d) := by
  have hsub : (StdList.unlink n.id s.cache_list).Sublist s.cache_list := List.filter_sublist _
  refine ⟨⟨(hsub.map _).nodup hw.1, StdMap.nodup_erase _ hw.2.1, hd⟩, (hsub.map _).nodup hb.1, ?_⟩
  have h1 := hb.2.filter (fun e => decide (e.1 ≠ n.first))
  rw [List.filter_map] at h1
  rw [StdList.unlink_eq_filter_first hw.1 hb.1 hn]
  exact h1

end PrecomputeLRUCache

/-! ## What each operation computes -/

namespace PrecomputeLRUCache

variable {K V W : Type} [DecidableEq K]

theorem MoveLast_of_le {cap : Nat} {s : PrecomputeLRUCache K V} (h : Size s ≤ cap) :
    MoveLastToDirtyIfFull cap s = some s := by
  unfold MoveLastToDirtyIfFull
  unfold Size at h
  rw [if_neg (by omega)]

theorem MoveLast_of_gt {cap : Nat} {s : PrecomputeLRUCache K V} (h : cap < Size s)
    {init : List (Node K V)} {last : Node K V} (hl : s.cache_list = init ++ [last]) :
    MoveLastToDirtyIfFull cap s =
      some (mk init (StdMap.erase last.first s.mapCacheLocation)
        (StdMap.assign last.first last.second s.mapDirtyWitnessData)) := by
  unfold MoveLastToDirtyIfFull
  unfold Size at h
  rw [if_pos h, hl]
  simp

theorem AddNew_of_lt {cap : Nat} {s : PrecomputeLRUCache K V} {k : K} (v : V)
    (hk : StdMap.find k s.mapCacheLocation = none) (h : Size s < cap) :
    AddNew cap k v s =
      some (mk (StdList.push_front k v s.cache_list)
        ((k, StdList.freshId s.cache_list) :: s.mapCacheLocation)
        (StdMap.erase k s.mapDirtyWitnessData)) := by
  unfold AddNew
  simp only [StdMap.insert, hk]
  rw [MoveLast_of_le]
  unfold Size StdMap.size at *
  simp only [List.length_cons]
  omega

theorem AddNew_of_full {cap : Nat} {s : PrecomputeLRUCache K V} {k : K} (v : V)
    (hk : StdMap.find k s.mapCacheLocation = none) (h : cap ≤ Size s)
    {init : List (Node K V)} {last : Node K V} (hl : s.cache_list = init ++ [last]) :
    AddNew cap k v s =
      some (mk (⟨StdList.freshId s.cache_list, k, v⟩ :: init)
        (StdMap.erase last.first ((k, StdList.freshId s.cache_list) :: s.mapCacheLocation))
        (StdMap.erase k (StdMap.assign last.first last.second s.mapDirtyWitnessData))) := by
  unfold AddNew
  simp only [StdMap.insert, hk]
  have hl2 : StdList.push_front k v s.cache_list =
      (⟨StdList.freshId s.cache_list, k, v⟩ :: init) ++ [last] := by
    simp [StdList.push_front, hl]
  rw [MoveLast_of_gt _ hl2]
  unfold Size StdMap.size at *
  simp only [List.length_cons]
  omega

theorem AddNew_of_nil {s : PrecomputeLRUCache K V} {k : K} (v : V)
    (hk : StdMap.find k s.mapCacheLocation = none) (hl : s.cache_list = []) :
    AddNew 0 k v s =
      some (mk [] (StdMap.erase k s.mapCacheLocation)
        (StdMap.erase k s.mapDirtyWitnessData)) := by
  unfold AddNew
  simp only [StdMap.insert, hk]
  have hl2 : StdList.push_front k v s.cache_list =
      [] ++ [⟨StdList.freshId s.cache_list, k, v⟩] := by
    simp [StdList.push_front, hl]
  rw [MoveLast_of_gt _ hl2]
  · have h1 := StdMap.erase_cons_self (k, StdList.freshId s.cache_list) s.mapCacheLocation
    have h2 := StdMap.erase_cons_self (k, v) (StdMap.erase k s.mapDirtyWitnessData)
    simp only at h1 h2
    simp only [StdMap.assign, h1, h2, StdMap.erase_idem]
  · unfold Size StdMap.size
    simp

theorem splice_of_mem {l : List (Node K V)} {n : Node K V}
    (hid : (l.map Node.id).Nodup) (hn : n ∈ l) :
    StdList.splice_front n.id l = some (n :: StdList.unlink n.id l) := by
  unfold StdList.splice_front
  rw [StdList.deref_of_mem hid hn]

theorem deref_head (n : Node K V) (t : List (Node K V)) :
    StdList.deref n.id (n :: t) = some n := by
  simp [StdList.deref]

theorem AddToCache_hot {cap : Nat} {s : PrecomputeLRUCache K V} (hw : WellFormed s)
    (hb : Bijection s) (hs : Size s ≤ cap) {n : Node K V} (hn : n ∈ s.cache_list) (v : V) :
    AddToCache cap n.first v s =
      some (mk ({ n with second := v } :: StdList.unlink n.id s.cache_list)
        s.mapCacheLocation (StdMap.erase n.first s.mapDirtyWitnessData)) := by
  have hf : StdMap.find n.first s.mapCacheLocation = some n.id :=
    (find_loc_eq_some_iff hw hb _ _).2 ⟨n, hn, rfl, rfl⟩
  unfold AddToCache
  simp only [hf, splice_of_mem hw.1 hn, StdList.set_front]
  exact MoveLast_of_le hs

theorem AddToCache_new {cap : Nat} {s s1 : PrecomputeLRUCache K V} {k : K} {v : V}
    (hk : StdMap.find k s.mapCacheLocation = none) (h1 : AddNew cap k v s = some s1)
    (hs : Size s1 ≤ cap) :
    AddToCache cap k v s =
      some { s1 with mapDirtyWitnessData := StdMap.erase k s1.mapDirtyWitnessData } := by
  unfold AddToCache
  simp only [hk, h1]
  exact MoveLast_of_le hs

theorem GetWitnessData_miss (cap : Nat) (toData : V → W) (toCache : W → V)
    {s : PrecomputeLRUCache K V} {k : K}
    (hk : StdMap.find k s.mapCacheLocation = none)
    (hd : StdMap.find k s.mapDirtyWitnessData = none) :
    GetWitnessData cap toData toCache k s = some (none, s) := by
  unfold GetWitnessData
  simp [StdMap.count, hd, hk]

theorem GetWitnessData_hot (cap : Nat) (toData : V → W) (toCache : W → V)
    {s : PrecomputeLRUCache K V} (hw : WellFormed s) (hb : Bijection s)
    {n : Node K V} (hn : n ∈ s.cache_list)
    (hd : StdMap.find n.first s.mapDirtyWitnessData = none) :
    GetWitnessData cap toData toCache n.first s =
      some (some (toData n.second),
        mk (n :: StdList.unlink n.id s.cache_list) s.mapCacheLocation
          s.mapDirtyWitnessData) := by
  have hf : StdMap.find n.first s.mapCacheLocation = some n.id :=
    (find_loc_eq_some_iff hw hb _ _).2 ⟨n, hn, rfl, rfl⟩
  unfold GetWitnessData
  simp [StdMap.count, hd, hf, splice_of_mem hw.1 hn, deref_head]

theorem GetWitnessData_dirty (cap : Nat) (toData : V → W) (toCache : W → V)
    {s s1 : PrecomputeLRUCache K V} {k : K} {d : V}
    (hd : StdMap.find k s.mapDirtyWitnessData = some d)
    (h1 : AddNew cap k (toCache (toData d)) s = some s1)
    (hd1 : StdMap.find k s1.mapDirtyWitnessData = none) :
    GetWitnessData cap toData toCache k s = GetWitnessData cap toData toCache k s1 := by
  unfold GetWitnessData
  simp [StdMap.count, hd, hd1, MoveDirtyToLRU, h1]

theorem Remove_hot {s : PrecomputeLRUCache K V} (hw : WellFormed s) (hb : Bijection s)
    {n : Node K V} (hn : n ∈ s.cache_list) :
    Remove n.first s =
      some (mk (StdList.unlink n.id s.cache_list)
        (StdMap.erase n.first s.mapCacheLocation)
        (StdMap.erase n.first s.mapDirtyWitnessData)) := by
  have hf : StdMap.find n.first s.mapCacheLocation = some n.id :=
    (find_loc_eq_some_iff hw hb _ _).2 ⟨n, hn, rfl, rfl⟩
  unfold Remove
  simp [hf, StdList.erase, StdList.deref_of_mem hw.1 hn]

theorem Remove_miss {s : PrecomputeLRUCache K V} {k : K}
    (hk : StdMap.find k s.mapCacheLocation = none) :
    Remove k s =
      some (mk s.cache_list s.mapCacheLocation (StdMap.erase k s.mapDirtyWitnessData)) := by
  unfold Remove
  simp [hk]

end PrecomputeLRUCache

/-! ## The invariants are preserved -/

namespace PrecomputeLRUCache

variable {K V W : Type} [DecidableEq K]

theorem inv_empty (cap : Nat) : Inv cap (empty : PrecomputeLRUCache K V) := by
  simp [Inv, WellFormed, Bijection, TierDisjoint, Size, StdMap.size, empty, Clear]

theorem core_dirty {l : List (Node K V)} {loc : List (K × Nat)} {d d1 : List (K × V)}
    (h : WellFormed (mk l loc d) ∧ Bijection (mk l loc d)) (hd : (d1.map Prod.fst).Nodup) :
    WellFormed (mk l loc d1) ∧ Bijection (mk l loc d1) :=
  ⟨⟨h.1.1, h.1.2.1, hd⟩, h.2⟩

theorem list_eq_nil_or_concat (l : List (Node K V)) :
    l = [] ∨ ∃ init last, l = init ++ [last] := by
  rcases List.eq_nil_or_concat l with h | ⟨init, last, h⟩
  · exact Or.inl h
  · exact Or.inr ⟨init, last, by simpa using h⟩

theorem AddNew_inv {cap : Nat} {s : PrecomputeLRUCache K V} (hi : Inv cap s) {k : K}
    (v : V) (hk : StdMap.find k s.mapCacheLocation = none) :
    ∃ s1, AddNew cap k v s = some s1 ∧ Inv cap s1 ∧
      StdMap.find k s1.mapDirtyWitnessData = none := by
  obtain ⟨hw, hb, hd, hs⟩ := hi
  have hkh : k ∉ hotKeys s := (find_loc_eq_none_iff hb k).1 hk
  have hlen := size_eq_length hb
  by_cases hlt : Size s < cap
  · refine ⟨_, AddNew_of_lt v hk hlt, ⟨?_, ?_, ?_, ?_⟩, StdMap.find_erase_self _ _⟩
    · exact (core_push hw hb hkh v (StdMap.nodup_erase _ hw.2.2)).1
    · exact (core_push hw hb hkh v (StdMap.nodup_erase _ hw.2.2)).2
    · intro x hx hx2
      rw [StdMap.mem_keys_erase] at hx2
      simp only [List.map_cons, List.mem_cons] at hx
      rcases hx with hx | hx
      · exact hx2.2 hx
      · exact hd x hx hx2.1
    · unfold Size StdMap.size at *
      simp only [List.length_cons]
      omega
  · have hfull : cap ≤ Size s := by omega
    rcases list_eq_nil_or_concat s.cache_list with hl | ⟨init, last, hl⟩
    · have hc0 : cap = 0 := by
        rw [hl] at hlen
        simp at hlen
        omega
      subst hc0
      have hloc : s.mapCacheLocation = [] := by
        have := hb.2
        rw [hl] at this
        simpa using this
      refine ⟨_, AddNew_of_nil v hk hl, ⟨?_, ?_, ?_, ?_⟩, StdMap.find_erase_self _ _⟩
      · exact ⟨by simp, by simp [hloc, StdMap.erase], StdMap.nodup_erase _ hw.2.2⟩
      · simp [Bijection, hloc, StdMap.erase]
      · simp [TierDisjoint, hloc, StdMap.erase]
      · simp [Size, StdMap.size, hloc, StdMap.erase]
    · have hl2 : StdList.push_front k v s.cache_list =
          (⟨StdList.freshId s.cache_list, k, v⟩ :: init) ++ [last] := by
        simp [StdList.push_front, hl]
      have hc1 := core_push hw hb hkh v hw.2.2
      have hc2 := core_evict hc1.1 hc1.2 hl2
      have hc3 := core_dirty hc2 (StdMap.nodup_erase k hc2.1.2.2)
      dsimp only at hc3
      have hexp := AddNew_of_full v hk hfull hl
      refine ⟨_, hexp, ⟨hc3.1, hc3.2, ?_, ?_⟩, StdMap.find_erase_self _ _⟩
      · intro x hx hx2
        rw [StdMap.mem_keys_erase] at hx hx2
        simp only [StdMap.assign, List.map_cons, List.mem_cons, StdMap.mem_keys_erase] at hx hx2
        rcases hx.1 with hx1 | hx1
        · exact hx2.2 hx1
        · rcases hx2.1 with hx3 | hx3
          · exact hx.2 hx3
          · exact hd x hx1 hx3.1
      · rw [size_eq_length hc3.2]
        rw [hl] at hlen
        simp only [List.length_cons, List.length_append, List.length_nil] at hlen ⊢
        omega

theorem AddToCache_inv {cap : Nat} {s : PrecomputeLRUCache K V} (hi : Inv cap s)
    (k : K) (v : V) : ∃ s1, AddToCache cap k v s = some s1 ∧ Inv cap s1 := by
  cases hf : StdMap.find k s.mapCacheLocation with
  | none =>
    obtain ⟨s1, h1, hi1, hd1⟩ := AddNew_inv hi v hf
    refine ⟨_, AddToCache_new hf h1 hi1.2.2.2, ?_⟩
    rw [StdMap.erase_eq_self ((StdMap.find_eq_none_iff _ _).1 hd1)]
    exact hi1
  | some it =>
    obtain ⟨hw, hb, hd, hs⟩ := hi
    obtain ⟨n, hn, rfl, rfl⟩ := (find_loc_eq_some_iff hw hb k it).1 hf
    refine ⟨_, AddToCache_hot hw hb hs hn v, ?_⟩
    have hp : (List.map (fun n => (n.first, n.id))
        ({ n with second := v } :: StdList.unlink n.id s.cache_list)).Perm
        (s.cache_list.map (fun n => (n.first, n.id))) :=
      (StdList.perm_cons_unlink hw.1 hn).map (fun n => (n.first, n.id))
    have hc := core_of_perm hw hb hp (StdMap.nodup_erase n.first hw.2.2)
    refine ⟨hc.1, hc.2, ?_, hs⟩
    intro x hx hx2
    rw [StdMap.mem_keys_erase] at hx2
    exact hd x hx hx2.1

theorem GetWitnessData_inv_clean {cap : Nat} (toData : V → W) (toCache : W → V)
    {s : PrecomputeLRUCache K V} (hi : Inv cap s) {k : K}
    (hd : StdMap.find k s.mapDirtyWitnessData = none) :
    ∃ r, GetWitnessData cap toData toCache k s = some r ∧ Inv cap r.2 := by
  cases hf : StdMap.find k s.mapCacheLocation with
  | none => exact ⟨_, GetWitnessData_miss cap toData toCache hf hd, hi⟩
  | some it =>
    obtain ⟨hw, hb, hdj, hs⟩ := hi
    obtain ⟨n, hn, rfl, rfl⟩ := (find_loc_eq_some_iff hw hb k it).1 hf
    refine ⟨_, GetWitnessData_hot cap toData toCache hw hb hn hd, ?_⟩
    have hp : (List.map (fun n => (n.first, n.id))
        (n :: StdList.unlink n.id s.cache_list)).Perm
        (s.cache_list.map (fun n => (n.first, n.id))) :=
      (StdList.perm_cons_unlink hw.1 hn).map (fun n => (n.first, n.id))
    have hc := core_of_perm hw hb hp hw.2.2
    exact ⟨hc.1, hc.2, hdj, hs⟩

theorem GetWitnessData_inv {cap : Nat} (toData : V → W) (toCache : W → V)
    {s : PrecomputeLRUCache K V} (hi : Inv cap s) (k : K) :
    ∃ r, GetWitnessData cap toData toCache k s = some r ∧ Inv cap r.2 := by
  cases hd : StdMap.find k s.mapDirtyWitnessData with
  | none => exact GetWitnessData_inv_clean toData toCache hi hd
  | some d =>
    have hkd : k ∈ s.mapDirtyWitnessData.map Prod.fst :=
      List.mem_map.2 ⟨(k, d), StdMap.mem_of_find_eq_some hd, rfl⟩
    have hk : StdMap.find k s.mapCacheLocation = none := by
      rw [StdMap.find_eq_none_iff]
      exact fun h => hi.2.2.1 k h hkd
    obtain ⟨s1, h1, hi1, hd1⟩ := AddNew_inv hi (toCache (toData d)) hk
    rw [GetWitnessData_dirty cap toData toCache hd h1 hd1]
    exact GetWitnessData_inv_clean toData toCache hi1 hd1

theorem Remove_inv {cap : Nat} {s : PrecomputeLRUCache K V} (hi : Inv cap s) (k : K) :
    ∃ s1, Remove k s = some s1 ∧ Inv cap s1 := by
  obtain ⟨hw, hb, hd, hs⟩ := hi
  cases hf : StdMap.find k s.mapCacheLocation with
  | none =>
    refine ⟨_, Remove_miss hf, ⟨hw.1, hw.2.1, StdMap.nodup_erase _ hw.2.2⟩, hb, ?_, hs⟩
    intro x hx hx2
    rw [StdMap.mem_keys_erase] at hx2
    exact hd x hx hx2.1
  | some it =>
    obtain ⟨n, hn, rfl, rfl⟩ := (find_loc_eq_some_iff hw hb k it).1 hf
    have hc := core_remove hw hb hn (StdMap.nodup_erase n.first hw.2.2)
    refine ⟨_, Remove_hot hw hb hn, hc.1, hc.2, ?_, ?_⟩
    · intro x hx hx2
      rw [StdMap.mem_keys_erase] at hx hx2
      exact hd x hx.1 hx2.1
    · unfold Size StdMap.size StdMap.erase at *
      exact le_trans (List.length_filter_le _ _) hs

theorem FlushToDisk_inv {cap : Nat} {s : PrecomputeLRUCache K V} (hi : Inv cap s)
    (db : List (K × V)) : Inv cap (FlushToDisk s db).1 := by
  obtain ⟨hw, hb, _, hs⟩ := hi
  refine ⟨⟨hw.1, hw.2.1, ?_⟩, hb, ?_, hs⟩
  · simp [FlushToDisk]
  · simp [TierDisjoint, FlushToDisk]

theorem Clear_inv (cap : Nat) (s : PrecomputeLRUCache K V) : Inv cap (Clear s) :=
  inv_empty cap

end PrecomputeLRUCache

namespace Op

variable {K V W : Type} [DecidableEq K]

theorem apply_inv {cap : Nat} (toData : V → W) (toCache : W → V)
    {s : PrecomputeLRUCache K V} (hi : PrecomputeLRUCache.Inv cap s) (op : Op K V) :
    ∃ s1, apply cap toData toCache op s = some s1 ∧ PrecomputeLRUCache.Inv cap s1 := by
  cases op with
  | put k v => exact PrecomputeLRUCache.AddToCache_inv hi k v
  | get k =>
    obtain ⟨r, hr, hir⟩ := PrecomputeLRUCache.GetWitnessData_inv toData toCache hi k
    exact ⟨r.2, by simp [apply, hr], hir⟩
  | remove k => exact PrecomputeLRUCache.Remove_inv hi k
  | flush => exact ⟨_, rfl, PrecomputeLRUCache.FlushToDisk_inv hi []⟩
  | clear => exact ⟨_, rfl, PrecomputeLRUCache.Clear_inv cap s⟩

theorem run_inv {cap : Nat} (toData : V → W) (toCache : W → V) (ops : List (Op K V)) :
    ∀ {s : PrecomputeLRUCache K V}, PrecomputeLRUCache.Inv cap s →
      ∃ s1, run cap toData toCache ops s = some s1 ∧ PrecomputeLRUCache.Inv cap s1 := by
  induction ops with
  | nil => exact fun hi => ⟨_, rfl, hi⟩
  | cons op ops ih =>
    intro s hi
    obtain ⟨s1, h1, hi1⟩ := apply_inv toData toCache hi op
    obtain ⟨s2, h2, hi2⟩ := ih hi1
    exact ⟨s2, by simp [run, h1, h2], hi2⟩

end Op

/-! ## The value held for a key -/

namespace PrecomputeLRUCache

variable {K V W : Type} [DecidableEq K]

theorem entries_unlink {s : PrecomputeLRUCache K V} (hw : WellFormed s) (hb : Bijection s)
    {n : Node K V} (hn : n ∈ s.cache_list) :
    (StdList.unlink n.id s.cache_list).map (fun m => (m.first, m.second)) =
      StdMap.erase n.first (entries s) := by
  rw [StdList.unlink_eq_filter_first hw.1 hb.1 hn]
  unfold StdMap.erase entries
  rw [List.filter_map]
  rfl

theorem lookup_mk (x : K) (l : List (Node K V)) (loc : List (K × Nat)) (d : List (K × V)) :
    lookup x (mk l loc d) =
      match StdMap.find x (l.map (fun n => (n.first, n.second))) with
      | some v => some v
      | none => StdMap.find x d := rfl

theorem lookup_of_mem {s : PrecomputeLRUCache K V} (hb : Bijection s) {n : Node K V}
    (hn : n ∈ s.cache_list) : lookup n.first s = some n.second := by
  unfold lookup
  rw [find_entries_of_mem hb hn]

theorem lookup_of_not_hot {s : PrecomputeLRUCache K V} {k : K}
    (hk : StdMap.find k s.mapCacheLocation = none) (hb : Bijection s) :
    lookup k s = StdMap.find k s.mapDirtyWitnessData := by
  unfold lookup
  rw [(find_entries_eq_none_iff s k).2 ((find_loc_eq_none_iff hb k).1 hk)]

theorem Contains_iff {s : PrecomputeLRUCache K V} (hb : Bijection s) (k : K) :
    Contains k s = true ↔ (lookup k s).isSome = true := by
  have h1 : StdMap.count k s.mapCacheLocation > 0 ↔ k ∈ hotKeys s := by
    rw [← mem_keys_loc_iff hb, ← StdMap.count_ne_zero_iff]
    omega
  have h2 : StdMap.count k s.mapDirtyWitnessData > 0 ↔
      k ∈ s.mapDirtyWitnessData.map Prod.fst := by
    rw [← StdMap.count_ne_zero_iff]
    omega
  unfold Contains
  rw [Bool.or_eq_true, decide_eq_true_iff, decide_eq_true_iff, h1, h2]
  unfold lookup
  cases hf : StdMap.find k (entries s) with
  | some v =>
    have : k ∈ hotKeys s := by
      by_contra hc
      rw [(find_entries_eq_none_iff s k).2 hc] at hf
      cases hf
    simp [this]
  | none =>
    have hk : k ∉ hotKeys s := (find_entries_eq_none_iff s k).1 hf
    cases hd : StdMap.find k s.mapDirtyWitnessData with
    | none => simp [hk, (StdMap.find_eq_none_iff _ _).1 hd]
    | some d =>
      have : k ∈ s.mapDirtyWitnessData.map Prod.fst :=
        List.mem_map.2 ⟨(k, d), StdMap.mem_of_find_eq_some hd, rfl⟩
      simp [this]

theorem AddNew_lookup {cap : Nat} (hcap : 1 ≤ cap) {s : PrecomputeLRUCache K V}
    (hi : Inv cap s) {k : K} (v : V) (hk : StdMap.find k s.mapCacheLocation = none) :
    ∃ s1, AddNew cap k v s = some s1 ∧ Inv cap s1 ∧
      StdMap.find k s1.mapDirtyWitnessData = none ∧
      s1.cache_list.head? = some ⟨StdList.freshId s.cache_list, k, v⟩ ∧
      ∀ x, lookup x s1 = if x = k then some v else lookup x s := by
  obtain ⟨s1, h1, hi1, hd1⟩ := AddNew_inv hi v hk
  refine ⟨s1, h1, hi1, hd1, ?_⟩
  obtain ⟨hw, hb, hd, hs⟩ := hi
  have hlen := size_eq_length hb
  by_cases hlt : Size s < cap
  · have h2 := AddNew_of_lt v hk hlt
    rw [h1] at h2
    cases h2
    refine ⟨rfl, fun x => ?_⟩
    rw [lookup_mk]
    unfold lookup entries
    simp only [StdList.push_front, List.map_cons, StdMap.find_cons, StdMap.find_erase]
    by_cases hx : x = k
    · simp [hx]
    · have hx2 : ¬ k = x := fun h => hx h.symm
      simp [hx, hx2]
  · rcases list_eq_nil_or_concat s.cache_list with hl | ⟨init, last, hl⟩
    · rw [hl] at hlen
      simp at hlen
      omega
    · have hfull : cap ≤ Size s := by omega
      have h2 := AddNew_of_full v hk hfull hl
      rw [h1] at h2
      cases h2
      have hlast : last ∈ s.cache_list := by rw [hl]; simp
      have hkl : last.first ≠ k := by
        intro h
        have := (find_loc_eq_none_iff hb k).1 hk
        exact this (List.mem_map.2 ⟨last, hlast, h⟩)
      have hnl : StdMap.find last.first (init.map (fun n => (n.first, n.second))) = none := by
        rw [StdMap.find_eq_none_iff, List.map_map]
        have := hb.1
        rw [hl, List.map_append, List.nodup_append] at this
        intro hc
        exact this.2.2 hc (by simp)
      refine ⟨rfl, fun x => ?_⟩
      rw [lookup_mk]
      unfold lookup entries
      simp only [hl, List.map_cons, List.map_append, List.map_nil, StdMap.find_cons,
        StdMap.find_erase, StdMap.assign, StdMap.find_concat]
      by_cases hx : x = k
      · simp [hx]
      · have hx2 : ¬ k = x := fun h => hx h.symm
        simp only [hx, hx2, if_false]
        by_cases hxl : last.first = x
        · subst hxl
          simp [hnl]
        · have hxl2 : ¬ x = last.first := fun h => hxl h.symm
          simp only [hxl, hxl2, if_false]
          cases StdMap.find x (init.map (fun n => (n.first, n.second))) <;> rfl

theorem AddToCache_lookup {cap : Nat} (hcap : 1 ≤ cap) {s : PrecomputeLRUCache K V}
    (hi : Inv cap s) (k : K) (v : V) :
    ∃ s1, AddToCache cap k v s = some s1 ∧ Inv cap s1 ∧
      (entries s1).head? = some (k, v) ∧
      ∀ x, lookup x s1 = if x = k then some v else lookup x s := by
  cases hf : StdMap.find k s.mapCacheLocation with
  | none =>
    obtain ⟨s1, h1, hi1, hd1, hh1, hl1⟩ := AddNew_lookup hcap hi v hf
    have h2 := AddToCache_new hf h1 hi1.2.2.2
    rw [StdMap.erase_eq_self ((StdMap.find_eq_none_iff _ _).1 hd1)] at h2
    refine ⟨s1, h2, hi1, ?_, hl1⟩
    unfold entries
    rw [List.head?_map, hh1]
    rfl
  | some it =>
    obtain ⟨s1, h1, hi1⟩ := AddToCache_inv hi k v
    refine ⟨s1, h1, hi1, ?_⟩
    obtain ⟨hw, hb, hd, hs⟩ := hi
    obtain ⟨n, hn, rfl, rfl⟩ := (find_loc_eq_some_iff hw hb k it).1 hf
    have h2 := AddToCache_hot hw hb hs hn v
    rw [h1] at h2
    cases h2
    refine ⟨rfl, ?_⟩
    intro x
    rw [lookup_mk]
    simp only [List.map_cons, entries_unlink hw hb hn, StdMap.find_cons, StdMap.find_erase]
    unfold lookup
    by_cases hx : x = n.first
    · simp [hx]
    · have hx2 : ¬ n.first = x := fun h => hx h.symm
      simp [hx, hx2]

theorem GetWitnessData_lookup_clean {cap : Nat} (toData : V → W) (toCache : W → V)
    {s : PrecomputeLRUCache K V} (hi : Inv cap s) {k : K}
    (hd : StdMap.find k s.mapDirtyWitnessData = none) :
    ∃ s1, GetWitnessData cap toData toCache k s = some ((lookup k s).map toData, s1) ∧
      Inv cap s1 ∧ ∀ x, lookup x s1 = lookup x s := by
  obtain ⟨r, h1, hi1⟩ := GetWitnessData_inv_clean toData toCache hi hd
  obtain ⟨hw, hb, hdj, hs⟩ := hi
  cases hf : StdMap.find k s.mapCacheLocation with
  | none =>
    have h2 := GetWitnessData_miss cap toData toCache hf hd
    rw [h1] at h2
    cases h2
    rw [lookup_of_not_hot hf hb, hd]
    exact ⟨s, h1, hi1, fun _ => rfl⟩
  | some it =>
    obtain ⟨n, hn, rfl, rfl⟩ := (find_loc_eq_some_iff hw hb k it).1 hf
    have h2 := GetWitnessData_hot cap toData toCache hw hb hn hd
    rw [h1] at h2
    cases h2
    rw [lookup_of_mem hb hn]
    refine ⟨_, h1, hi1, ?_⟩
    intro x
    rw [lookup_mk]
    simp only [List.map_cons, entries_unlink hw hb hn, StdMap.find_cons, StdMap.find_erase]
    unfold lookup
    by_cases hx : x = n.first
    · subst hx
      simp [find_entries_of_mem hb hn]
    · have hx2 : ¬ n.first = x := fun h => hx h.symm
      simp [hx, hx2]

theorem GetWitnessData_lookup {cap : Nat} (hcap : 1 ≤ cap) {s : PrecomputeLRUCache K V}
    (hi : Inv cap s) (k : K) :
    ∃ s1, GetWitnessData cap id id k s = some (lookup k s, s1) ∧ Inv cap s1 ∧
      ∀ x, lookup x s1 = lookup x s := by
  cases hd : StdMap.find k s.mapDirtyWitnessData with
  | none =>
    obtain ⟨s1, h1, hi1, hl1⟩ := GetWitnessData_lookup_clean (id : V → V) id hi hd
    exact ⟨s1, by rw [h1, Option.map_id, id], hi1, hl1⟩
  | some d =>
    have hkd : k ∈ s.mapDirtyWitnessData.map Prod.fst :=
      List.mem_map.2 ⟨(k, d), StdMap.mem_of_find_eq_some hd, rfl⟩
    have hk : StdMap.find k s.mapCacheLocation = none := by
      rw [StdMap.find_eq_none_iff]
      exact fun h => hi.2.2.1 k h hkd
    have hlk : lookup k s = some d := by rw [lookup_of_not_hot hk hi.2.1, hd]
    obtain ⟨s1, h1, hi1, hd1, _, hl1⟩ := AddNew_lookup hcap hi d hk
    have hsame : ∀ x, lookup x s1 = lookup x s := by
      intro x
      rw [hl1 x]
      by_cases hx : x = k
      · rw [if_pos hx, hx, hlk]
      · rw [if_neg hx]
    obtain ⟨s2, h2, hi2, hl2⟩ := GetWitnessData_lookup_clean (id : V → V) id hi1 hd1
    refine ⟨s2, ?_, hi2, fun x => (hl2 x).trans (hsame x)⟩
    rw [GetWitnessData_dirty cap id id hd h1 hd1, h2, hsame k, Option.map_id, id]

theorem Remove_lookup {cap : Nat} {s : PrecomputeLRUCache K V} (hi : Inv cap s) (k : K) :
    ∃ s1, Remove k s = some s1 ∧ Inv cap s1 ∧
      ∀ x, lookup x s1 = if x = k then none else lookup x s := by
  obtain ⟨s1, h1, hi1⟩ := Remove_inv hi k
  refine ⟨s1, h1, hi1, ?_⟩
  obtain ⟨hw, hb, hd, hs⟩ := hi
  intro x
  cases hf : StdMap.find k s.mapCacheLocation with
  | none =>
    have h2 := Remove_miss hf
    rw [h1] at h2
    cases h2
    have hke : StdMap.find k (entries s) = none :=
      (find_entries_eq_none_iff s k).2 ((find_loc_eq_none_iff hb k).1 hf)
    rw [lookup_mk]
    unfold lookup
    simp only [StdMap.find_erase]
    by_cases hx : x = k
    · subst hx
      unfold entries at hke
      simp [hke]
    · simp [hx, entries]
  | some it =>
    obtain ⟨n, hn, rfl, rfl⟩ := (find_loc_eq_some_iff hw hb k it).1 hf
    have h2 := Remove_hot hw hb hn
    rw [h1] at h2
    cases h2
    rw [lookup_mk]
    simp only [entries_unlink hw hb hn, StdMap.find_erase]
    unfold lookup
    by_cases hx : x = n.first
    · simp [hx]
    · simp [hx]

end PrecomputeLRUCache

/-! ## Promotion from the dirty tier -/

namespace PrecomputeLRUCache

variable {K V W : Type} [DecidableEq K]

theorem not_hot_of_dirty {cap : Nat} {s : PrecomputeLRUCache K V} (hi : Inv cap s) {k : K}
    {d : V} (hd : StdMap.find k s.mapDirtyWitnessData = some d) :
    StdMap.find k s.mapCacheLocation = none := by
  have hkd : k ∈ s.mapDirtyWitnessData.map Prod.fst :=
    List.mem_map.2 ⟨(k, d), StdMap.mem_of_find_eq_some hd, rfl⟩
  rw [StdMap.find_eq_none_iff]
  exact fun h => hi.2.2.1 k h hkd

/-- With capacity at least one, reading a dirty key is `AddNew` of that key:
the later splice finds the new node already at the front. -/
theorem GetWitnessData_promote {cap : Nat} (hcap : 1 ≤ cap) {s : PrecomputeLRUCache K V}
    (hi : Inv cap s) {k : K} {d : V} (hd : StdMap.find k s.mapDirtyWitnessData = some d) :
    ∃ s1, AddNew cap k d s = some s1 ∧ Inv cap s1 ∧
      GetWitnessData cap id id k s = some (some d, s1) ∧
      StdMap.find k s1.mapDirtyWitnessData = none ∧
      s1.cache_list.head? = some ⟨StdList.freshId s.cache_list, k, d⟩ := by
  have hk := not_hot_of_dirty hi hd
  obtain ⟨s1, h1, hi1, hd1, hh1, _⟩ := AddNew_lookup hcap hi d hk
  refine ⟨s1, h1, hi1, ?_, hd1, hh1⟩
  rw [GetWitnessData_dirty cap id id hd h1 hd1]
  obtain ⟨l, loc, dirty⟩ := s1
  cases l with
  | nil => simp at hh1
  | cons n t =>
    simp only [List.head?_cons, Option.some.injEq] at hh1
    subst hh1
    have h2 := GetWitnessData_hot cap (id : V → V) id hi1.1 hi1.2.1
      (List.mem_cons_self _ t) hd1
    simp only at h2
    rw [h2, StdList.unlink_head hi1.1.1]
    rfl

/-- Promotion into a full hot tier, spelled out. -/
theorem promote_full {cap : Nat} (hcap : 1 ≤ cap) {s : PrecomputeLRUCache K V}
    (hi : Inv cap s) (hfull : Size s = cap) {k : K} {d : V}
    (hd : StdMap.find k s.mapDirtyWitnessData = some d) :
    ∃ init last, s.cache_list = init ++ [last] ∧ last.first ≠ k ∧
      last.first ∉ s.mapDirtyWitnessData.map Prod.fst ∧
      GetWitnessData cap id id k s = some (some d,
        mk (⟨StdList.freshId s.cache_list, k, d⟩ :: init)
          ((k, StdList.freshId s.cache_list) :: StdMap.erase last.first s.mapCacheLocation)
          (StdMap.assign last.first last.second (StdMap.erase k s.mapDirtyWitnessData))) := by
  have hk := not_hot_of_dirty hi hd
  obtain ⟨s1, h1, hi1, h2, _, _⟩ := GetWitnessData_promote hcap hi hd
  have hlen := size_eq_length hi.2.1
  rcases list_eq_nil_or_concat s.cache_list with hl | ⟨init, last, hl⟩
  · rw [hl] at hlen
    simp at hlen
    omega
  · have hlast : last ∈ s.cache_list := by rw [hl]; simp
    have hlh : last.first ∈ hotKeys s := List.mem_map.2 ⟨last, hlast, rfl⟩
    have hkl : last.first ≠ k := by
      intro h
      exact (find_loc_eq_none_iff hi.2.1 k).1 hk (h ▸ hlh)
    have hld : last.first ∉ s.mapDirtyWitnessData.map Prod.fst :=
      hi.2.2.1 _ ((mem_keys_loc_iff hi.2.1 _).2 hlh)
    refine ⟨init, last, hl, hkl, hld, ?_⟩
    have h3 := AddNew_of_full d hk (le_of_eq hfull.symm) hl
    rw [h1] at h3
    rw [h2, Option.some.inj h3]
    have e1 : StdMap.erase last.first ((k, StdList.freshId s.cache_list) :: s.mapCacheLocation)
        = (k, StdList.freshId s.cache_list) :: StdMap.erase last.first s.mapCacheLocation :=
      StdMap.erase_cons_ne (fun h => hkl h.symm) _
    have e2 : StdMap.erase k (StdMap.assign last.first last.second s.mapDirtyWitnessData)
        = StdMap.assign last.first last.second (StdMap.erase k s.mapDirtyWitnessData) := by
      unfold StdMap.assign
      rw [StdMap.erase_cons_ne hkl, StdMap.erase_comm]
    rw [e1, e2]

end PrecomputeLRUCache

/-! ## Recency order under insertions -/

theorem precedes_filter {K : Type} [DecidableEq K] {a b c : K} (hc : c ≠ a) :
    ∀ l : List K, Precedes a b l → Precedes a b (l.filter (fun x => decide (x ≠ c))) := by
  intro l
  induction l with
  | nil => exact fun h => h
  | cons x t ih =>
    intro h
    by_cases hx : x = c
    · rw [List.filter_cons_of_neg (by simp [hx])]
      rcases h with h | h
      · exact absurd (hx.symm.trans h) hc
      · exact ih h.2
    · rw [List.filter_cons_of_pos (by simpa using hx)]
      rcases h with h | h
      · exact Or.inl h
      · exact Or.inr ⟨h.1, ih h.2⟩

theorem precedes_init {K : Type} {a b : K} :
    ∀ (t u : List K), Precedes a b (t ++ u) → Precedes a b t := by
  intro t
  induction t with
  | nil => exact fun _ _ => trivial
  | cons x t ih =>
    intro u h
    rcases h with h | h
    · exact Or.inl h
    · exact Or.inr ⟨h.1, ih u h.2⟩

theorem precedes_not_mem {K : Type} {a b : K} :
    ∀ l : List K, Precedes a b l → a ∉ l → b ∉ l := by
  intro l
  induction l with
  | nil => exact fun _ _ h => by simp at h
  | cons x t ih =>
    intro h ha hb
    rcases h with h | h
    · exact ha (h ▸ List.mem_cons_self _ _)
    · rcases List.mem_cons.1 hb with hb1 | hb1
      · exact h.1 hb1.symm
      · exact ih h.2 (fun hm => ha (List.mem_cons_of_mem _ hm)) hb1

namespace PrecomputeLRUCache

variable {K V W : Type} [DecidableEq K]

theorem hotKeys_unlink {s : PrecomputeLRUCache K V} (hw : WellFormed s) (hb : Bijection s)
    {n : Node K V} (hn : n ∈ s.cache_list) :
    (StdList.unlink n.id s.cache_list).map Node.first =
      (hotKeys s).filter (fun x => decide (x ≠ n.first)) := by
  rw [StdList.unlink_eq_filter_first hw.1 hb.1 hn]
  unfold hotKeys
  rw [List.filter_map]
  rfl

/-- The keys of the recency list after `AddToCache(k, v)`: `k` in front of the
old keys without `k`, or in front of the old keys without the last one. -/
theorem AddToCache_keys {cap : Nat} {s : PrecomputeLRUCache K V} (hi : Inv cap s)
    (k : K) (v : V) :
    ∃ s1, AddToCache cap k v s = some s1 ∧ Inv cap s1 ∧
      (hotKeys s1 = k :: (hotKeys s).filter (fun x => decide (x ≠ k)) ∨
        (∃ t u, hotKeys s = t ++ u ∧ (hotKeys s1 = k :: t ∨ hotKeys s1 = []))) := by
  obtain ⟨s1, h1, hi1⟩ := AddToCache_inv hi k v
  refine ⟨s1, h1, hi1, ?_⟩
  cases hf : StdMap.find k s.mapCacheLocation with
  | some it =>
    obtain ⟨hw, hb, hd, hs⟩ := hi
    obtain ⟨n, hn, rfl, rfl⟩ := (find_loc_eq_some_iff hw hb k it).1 hf
    have h2 := AddToCache_hot hw hb hs hn v
    rw [h1] at h2
    cases h2
    left
    simp only [hotKeys, List.map_cons]
    rw [hotKeys_unlink hw hb hn]
    rfl
  | none =>
    right
    obtain ⟨s2, h2, hi2, hd2⟩ := AddNew_inv hi v hf
    have h3 := AddToCache_new hf h2 hi2.2.2.2
    rw [h1] at h3
    cases h3
    have hlen := size_eq_length hi.2.1
    by_cases hlt : Size s < cap
    · have h4 := AddNew_of_lt v hf hlt
      rw [h2] at h4
      cases h4
      exact ⟨hotKeys s, [], by simp, Or.inl rfl⟩
    · have hfull : cap ≤ Size s := by omega
      rcases list_eq_nil_or_concat s.cache_list with hl | ⟨init, last, hl⟩
      · have hc0 : cap = 0 := by
          rw [hl] at hlen
          simp at hlen
          have := hi.2.2.2
          omega
        subst hc0
        have h4 := AddNew_of_nil v hf hl
        rw [h2] at h4
        cases h4
        exact ⟨[], [], by simp [hotKeys, hl], Or.inr rfl⟩
      · have h4 := AddNew_of_full v hf hfull hl
        rw [h2] at h4
        cases h4
        exact ⟨init.map Node.first, [last.first], by simp [hotKeys, hl], Or.inl rfl⟩

theorem AddToCache_precedes {cap : Nat} {s : PrecomputeLRUCache K V} (hi : Inv cap s)
    {a b k : K} (hka : k ≠ a) (hkb : k ≠ b) (v : V) (hp : Precedes a b (hotKeys s)) :
    ∃ s1, AddToCache cap k v s = some s1 ∧ Inv cap s1 ∧ Precedes a b (hotKeys s1) := by
  obtain ⟨s1, h1, hi1, hk⟩ := AddToCache_keys hi k v
  refine ⟨s1, h1, hi1, ?_⟩
  rcases hk with hk | ⟨t, u, htu, hk | hk⟩
  · rw [hk]
    exact Or.inr ⟨hkb, precedes_filter hka _ hp⟩
  · rw [hk]
    rw [htu] at hp
    exact Or.inr ⟨hkb, precedes_init t u hp⟩
  · rw [hk]
    trivial

end PrecomputeLRUCache

namespace Op

variable {K V W : Type} [DecidableEq K]

theorem run_append (cap : Nat) (toData : V → W) (toCache : W → V) (a b : List (Op K V)) :
    ∀ s : PrecomputeLRUCache K V, run cap toData toCache (a ++ b) s =
      match run cap toData toCache a s with
      | none => none
      | some s1 => run cap toData toCache b s1 := by
  induction a with
  | nil => intro s; rfl
  | cons op a ih =>
    intro s
    simp only [List.cons_append, run]
    cases apply cap toData toCache op s with
    | none => rfl
    | some s1 => exact ih s1

theorem run_puts_precedes {cap : Nat} (toData : V → W) (toCache : W → V) {a b : K}
    (puts : List (K × V)) :
    (∀ e ∈ puts, e.1 ≠ a ∧ e.1 ≠ b) →
    ∀ s : PrecomputeLRUCache K V, PrecomputeLRUCache.Inv cap s →
      Precedes a b (PrecomputeLRUCache.hotKeys s) →
      ∃ s1, run cap toData toCache (puts.map (fun e => Op.put e.1 e.2)) s = some s1 ∧
        PrecomputeLRUCache.Inv cap s1 ∧ Precedes a b (PrecomputeLRUCache.hotKeys s1) := by
  induction puts with
  | nil => exact fun _ s hi hp => ⟨s, rfl, hi, hp⟩
  | cons e puts ih =>
    intro hne s hi hp
    have he := hne e (List.mem_cons_self _ _)
    obtain ⟨s1, h1, hi1, hp1⟩ := PrecomputeLRUCache.AddToCache_precedes hi he.1 he.2 e.2 hp
    obtain ⟨s2, h2, hi2, hp2⟩ := ih (fun x hx => hne x (List.mem_cons_of_mem _ hx)) s1 hi1 hp1
    exact ⟨s2, by simp [run, apply, h1, h2], hi2, hp2⟩

theorem run_puts_lookup {cap : Nat} (hcap : 1 ≤ cap) (toData : V → W) (toCache : W → V)
    {b : K} (puts : List (K × V)) :
    (∀ e ∈ puts, e.1 ≠ b) →
    ∀ s : PrecomputeLRUCache K V, PrecomputeLRUCache.Inv cap s →
      ∃ s1, run cap toData toCache (puts.map (fun e => Op.put e.1 e.2)) s = some s1 ∧
        PrecomputeLRUCache.lookup b s1 = PrecomputeLRUCache.lookup b s := by
  induction puts with
  | nil => exact fun _ s _ => ⟨s, rfl, rfl⟩
  | cons e puts ih =>
    intro hne s hi
    have he := hne e (List.mem_cons_self _ _)
    obtain ⟨s1, h1, hi1, _, hl1⟩ := PrecomputeLRUCache.AddToCache_lookup hcap hi e.1 e.2
    obtain ⟨s2, h2, hl2⟩ := ih (fun x hx => hne x (List.mem_cons_of_mem _ hx)) s1 hi1
    refine ⟨s2, by simp [run, apply, h1, h2], ?_⟩
    rw [hl2, hl1 b, if_neg (fun h => he h.symm)]

/-- Inserting distinct new keys while the hot tier has room stacks them on the
recency list and leaves an empty dirty tier empty. -/
theorem run_puts_fill {cap : Nat} (toData : V → W) (toCache : W → V) (kvs : List (K × V)) :
    ∀ s : PrecomputeLRUCache K V, PrecomputeLRUCache.Inv cap s →
      s.mapDirtyWitnessData = [] → (kvs.map Prod.fst).Nodup →
      (∀ e ∈ kvs, e.1 ∉ PrecomputeLRUCache.hotKeys s) →
      PrecomputeLRUCache.Size s + kvs.length ≤ cap →
      ∃ s1, run cap toData toCache (kvs.map (fun e => Op.put e.1 e.2)) s = some s1 ∧
        PrecomputeLRUCache.Inv cap s1 ∧
        PrecomputeLRUCache.entries s1 = kvs.reverse ++ PrecomputeLRUCache.entries s ∧
        s1.mapDirtyWitnessData = [] := by
  induction kvs with
  | nil => exact fun s hi hd _ _ _ => ⟨s, rfl, hi, by simp, hd⟩
  | cons e kvs ih =>
    intro s hi hd hnd hnew hsz
    simp only [List.map_cons, List.nodup_cons] at hnd
    simp only [List.length_cons] at hsz
    have hk : StdMap.find e.1 s.mapCacheLocation = none :=
      (PrecomputeLRUCache.find_loc_eq_none_iff hi.2.1 e.1).2 (hnew e (List.mem_cons_self _ _))
    have hlt : PrecomputeLRUCache.Size s < cap := by omega
    have h1 := PrecomputeLRUCache.AddNew_of_lt e.2 hk hlt
    have h2 := PrecomputeLRUCache.AddToCache_new hk h1 (by
      unfold PrecomputeLRUCache.Size StdMap.size at *
      simp only [List.length_cons]
      omega)
    obtain ⟨s1, h3, hi1⟩ := PrecomputeLRUCache.AddToCache_inv hi e.1 e.2
    rw [h2] at h3
    cases h3
    rw [hd] at hi1 h2
    have he : StdMap.erase e.1 (StdMap.erase e.1 ([] : List (K × V))) = [] := rfl
    rw [he] at hi1 h2
    obtain ⟨s2, h4, hi2, he2, hd2⟩ := ih _ hi1 rfl hnd.2 (by
      intro x hx hc
      simp only [PrecomputeLRUCache.hotKeys, StdList.push_front, List.map_cons,
        List.mem_cons] at hc
      rcases hc with hc | hc
      · exact hnd.1 (hc ▸ List.mem_map.2 ⟨x, hx, rfl⟩)
      · exact hnew x (List.mem_cons_of_mem _ hx) hc) (by
      unfold PrecomputeLRUCache.Size StdMap.size at *
      simp only [List.length_cons]
      omega)
    refine ⟨s2, by simp [run, apply, h2, h4], hi2, ?_, hd2⟩
    rw [he2]
    simp [PrecomputeLRUCache.entries, StdList.push_front]

/-- State after inserting `CAPACITY + 1` distinct keys into the empty cache:
the hot tier is full and the dirty tier holds exactly the first pair. -/
theorem puts_overflow {cap : Nat} (hcap : 1 ≤ cap) (toData : V → W) (toCache : W → V)
    (k0 : K) (v0 : V) (rest : List (K × V)) (hlen : rest.length = cap)
    (hnd : (((k0, v0) :: rest).map Prod.fst).Nodup) :
    ∃ s, run cap toData toCache (((k0, v0) :: rest).map (fun e => Op.put e.1 e.2))
        (PrecomputeLRUCache.empty : PrecomputeLRUCache K V) = some s ∧
      PrecomputeLRUCache.Inv cap s ∧ PrecomputeLRUCache.Size s = cap ∧
      s.mapDirtyWitnessData = [(k0, v0)] := by
  rcases List.eq_nil_or_concat rest with h | ⟨mid, e, h⟩
  · subst h
    simp at hlen
    omega
  · have hrest : rest = mid ++ [e] := by simpa using h
    subst hrest
    have hsplit : (k0, v0) :: (mid ++ [e]) = ((k0, v0) :: mid) ++ [e] := rfl
    rw [hsplit] at hnd ⊢
    rw [List.map_append, List.nodup_append] at hnd
    rw [List.map_append, run_append]
    simp only [List.length_append, List.length_singleton] at hlen
    obtain ⟨s1, h1, hi1, he1, hd1⟩ := run_puts_fill toData toCache ((k0, v0) :: mid)
      (PrecomputeLRUCache.empty : PrecomputeLRUCache K V) (PrecomputeLRUCache.inv_empty cap)
      rfl hnd.1 (by intro x _ hc; simp [PrecomputeLRUCache.hotKeys,
        PrecomputeLRUCache.empty, PrecomputeLRUCache.Clear] at hc) (by
        simp [PrecomputeLRUCache.Size, StdMap.size, PrecomputeLRUCache.empty,
          PrecomputeLRUCache.Clear]
        omega)
    rw [h1]
    have hent : PrecomputeLRUCache.entries s1 = mid.reverse ++ [(k0, v0)] := by
      rw [he1]
      simp [PrecomputeLRUCache.entries, PrecomputeLRUCache.empty, PrecomputeLRUCache.Clear]
    have hsz : PrecomputeLRUCache.Size s1 = cap := by
      rw [PrecomputeLRUCache.size_eq_length hi1.2.1]
      have := congrArg List.length hent
      simp only [PrecomputeLRUCache.entries, List.length_map, List.length_append,
        List.length_reverse, List.length_singleton] at this
      omega
    have hke : e.1 ∉ PrecomputeLRUCache.hotKeys s1 := by
      have hkeys : PrecomputeLRUCache.hotKeys s1 =
          (PrecomputeLRUCache.entries s1).map Prod.fst := by
        simp [PrecomputeLRUCache.hotKeys, PrecomputeLRUCache.entries, List.map_map,
          Function.comp_def]
      rw [hkeys, hent]
      intro hc
      refine hnd.2.2 ?_ (by simp : e.1 ∈ List.map Prod.fst [e])
      simp only [List.map_append, List.map_reverse, List.map_cons, List.map_nil,
        List.mem_append, List.mem_reverse, List.mem_singleton] at hc
      simp only [List.map_cons, List.mem_cons]
      tauto
    have hk : StdMap.find e.1 s1.mapCacheLocation = none :=
      (PrecomputeLRUCache.find_loc_eq_none_iff hi1.2.1 e.1).2 hke
    rcases PrecomputeLRUCache.list_eq_nil_or_concat s1.cache_list with hl | ⟨init, last, hl⟩
    · rw [PrecomputeLRUCache.entries, hl] at hent
      simp at hent
    · have hlast : (last.first, last.second) = (k0, v0) := by
        rw [PrecomputeLRUCache.entries, hl, List.map_append] at hent
        have := (List.append_inj' hent rfl).2
        simpa using this
      simp only [Prod.mk.injEq] at hlast
      have hne : (k0, v0).1 ≠ e.1 := by
        intro hc
        exact hnd.2.2 (List.mem_map.2 ⟨(k0, v0), List.mem_cons_self _ _, rfl⟩)
          (by simpa using hc : k0 ∈ List.map Prod.fst [e])
      have h2 := PrecomputeLRUCache.AddNew_of_full e.2 hk (le_of_eq hsz.symm) hl
      rw [hd1, hlast.1, hlast.2] at h2
      have hdirty : StdMap.erase e.1 (StdMap.assign k0 v0 ([] : List (K × V))) = [(k0, v0)] :=
        StdMap.erase_cons_ne hne _
      rw [hdirty] at h2
      obtain ⟨sA, hA, hiA, _⟩ := PrecomputeLRUCache.AddNew_inv hi1 e.2 hk
      rw [h2] at hA
      cases hA
      have hszA := PrecomputeLRUCache.size_eq_length hiA.2.1
      have hlen1 := PrecomputeLRUCache.size_eq_length hi1.2.1
      rw [hl] at hlen1
      simp only [List.length_cons, List.length_append, List.length_nil] at hszA hlen1
      have h4 := PrecomputeLRUCache.AddToCache_new hk h2 hiA.2.2.2
      have hdirty2 : StdMap.erase e.1 [(k0, v0)] = [(k0, v0)] := StdMap.erase_cons_ne hne _
      simp only [hdirty2] at h4
      refine ⟨_, by simp [run, apply, h4], hiA, ?_, rfl⟩
      omega

end Op

/-! ## Runs of operations against the plain map -/

namespace Op

variable {K V W : Type} [DecidableEq K]

theorem apply_refines {cap : Nat} (hcap : 1 ≤ cap) {s : PrecomputeLRUCache K V}
    (hi : PrecomputeLRUCache.Inv cap s) {m : K → Option V}
    (hm : ∀ x, PrecomputeLRUCache.lookup x s = m x) (op : Op K V)
    (hop : op.isMapOp = true) :
    ∃ s1, apply cap id id op s = some s1 ∧ PrecomputeLRUCache.Inv cap s1 ∧
      ∀ x, PrecomputeLRUCache.lookup x s1 = SpecMap.step op m x := by
  cases op with
  | put k v =>
    obtain ⟨s1, h1, hi1, _, hl1⟩ := PrecomputeLRUCache.AddToCache_lookup hcap hi k v
    refine ⟨s1, h1, hi1, fun x => ?_⟩
    rw [hl1 x, hm x]
    rfl
  | get k =>
    obtain ⟨s1, h1, hi1, hl1⟩ := PrecomputeLRUCache.GetWitnessData_lookup hcap hi k
    refine ⟨s1, by simp [apply, h1], hi1, fun x => ?_⟩
    rw [hl1 x, hm x]
    rfl
  | remove k =>
    obtain ⟨s1, h1, hi1, hl1⟩ := PrecomputeLRUCache.Remove_lookup hi k
    refine ⟨s1, h1, hi1, fun x => ?_⟩
    rw [hl1 x, hm x]
    rfl
  | flush => simp [isMapOp] at hop
  | clear => simp [isMapOp] at hop

theorem run_refines {cap : Nat} (hcap : 1 ≤ cap) (ops : List (Op K V)) :
    (∀ op ∈ ops, op.isMapOp = true) →
    ∀ (s : PrecomputeLRUCache K V) (m : K → Option V), PrecomputeLRUCache.Inv cap s →
      (∀ x, PrecomputeLRUCache.lookup x s = m x) →
      ∃ s1, run cap id id ops s = some s1 ∧ PrecomputeLRUCache.Inv cap s1 ∧
        ∀ x, PrecomputeLRUCache.lookup x s1 = SpecMap.run ops m x := by
  induction ops with
  | nil => exact fun _ s m hi hm => ⟨s, rfl, hi, hm⟩
  | cons op ops ih =>
    intro hops s m hi hm
    obtain ⟨s1, h1, hi1, hl1⟩ :=
      apply_refines hcap hi hm op (hops op (List.mem_cons_self _ _))
    obtain ⟨s2, h2, hi2, hl2⟩ :=
      ih (fun o ho => hops o (List.mem_cons_of_mem _ ho)) s1 (SpecMap.step op m) hi1 hl1
    exact ⟨s2, by simp [run, h1, h2], hi2, hl2⟩

end Op

/-! ## Effects of single operations on the dirty index -/

namespace PrecomputeLRUCache

variable {K V W : Type} [DecidableEq K]

/-- On a key that is not hot, `AddToCache` is `AddNew`: the trailing erase and
eviction check change nothing. -/
theorem AddToCache_eq_AddNew {cap : Nat} {s : PrecomputeLRUCache K V} (hi : Inv cap s)
    {k : K} (v : V) (hk : StdMap.find k s.mapCacheLocation = none) :
    AddToCache cap k v s = AddNew cap k v s := by
  obtain ⟨s1, h1, hi1, hd1⟩ := AddNew_inv hi v hk
  rw [AddToCache_new hk h1 hi1.2.2.2, h1,
    StdMap.erase_eq_self ((StdMap.find_eq_none_iff _ _).1 hd1)]

theorem GetWitnessData_clean_frame {cap : Nat} (toData : V → W) (toCache : W → V)
    {s : PrecomputeLRUCache K V} (hi : Inv cap s) {k : K}
    (hd : StdMap.find k s.mapDirtyWitnessData = none) :
    ∃ r, GetWitnessData cap toData toCache k s = some r ∧
      r.2.mapCacheLocation = s.mapCacheLocation ∧
      r.2.mapDirtyWitnessData = s.mapDirtyWitnessData := by
  cases hf : StdMap.find k s.mapCacheLocation with
  | none => exact ⟨_, GetWitnessData_miss cap toData toCache hf hd, rfl, rfl⟩
  | some it =>
    obtain ⟨n, hn, rfl, rfl⟩ := (find_loc_eq_some_iff hi.1 hi.2.1 k it).1 hf
    exact ⟨_, GetWitnessData_hot cap toData toCache hi.1 hi.2.1 hn hd, rfl, rfl⟩

/-- A key that `AddNew` brings into the dirty index is the old tail of the
recency list, with the value it had there. -/
theorem AddNew_dirty_new {cap : Nat} {s s1 : PrecomputeLRUCache K V} (hi : Inv cap s)
    {k : K} {v : V} (hk : StdMap.find k s.mapCacheLocation = none)
    (h1 : AddNew cap k v s = some s1) (x : K) (d : V)
    (hx : StdMap.find x s1.mapDirtyWitnessData = some d)
    (hn : StdMap.find x s.mapDirtyWitnessData = none) :
    (entries s).getLast? = some (x, d) := by
  have hlen := size_eq_length hi.2.1
  by_cases hlt : Size s < cap
  · have h2 := AddNew_of_lt v hk hlt
    rw [h1] at h2
    cases h2
    simp only [StdMap.find_erase, hn] at hx
    split at hx <;> cases hx
  · have hfull : cap ≤ Size s := by omega
    rcases list_eq_nil_or_concat s.cache_list with hl | ⟨init, last, hl⟩
    · have hc0 : cap = 0 := by
        rw [hl] at hlen
        simp at hlen
        have := hi.2.2.2
        omega
      subst hc0
      have h2 := AddNew_of_nil v hk hl
      rw [h1] at h2
      cases h2
      simp only [StdMap.find_erase, hn] at hx
      split at hx <;> cases hx
    · have h2 := AddNew_of_full v hk hfull hl
      rw [h1] at h2
      cases h2
      simp only [StdMap.find_erase, StdMap.assign, StdMap.find_cons, hn] at hx
      by_cases hxk : x = k
      · simp [hxk] at hx
      · by_cases hxl : last.first = x
        · have hxl2 : x = last.first := hxl.symm
          simp only [hxk, hxl, if_false, if_true, Option.some.injEq] at hx
          simp [entries, hl, hxl2, hx]
        · have hxl2 : ¬ x = last.first := fun h => hxl h.symm
          simp [hxk, hxl, hxl2] at hx

/-- When the key is in neither tier, `AddNew` does not shrink the dirty index. -/
theorem AddNew_dirty_size {cap : Nat} {s s1 : PrecomputeLRUCache K V} (hi : Inv cap s)
    {k : K} {v : V} (hk : StdMap.find k s.mapCacheLocation = none)
    (hd : StdMap.find k s.mapDirtyWitnessData = none)
    (h1 : AddNew cap k v s = some s1) : DirtyCacheSize s ≤ DirtyCacheSize s1 := by
  have hlen := size_eq_length hi.2.1
  have hkd : StdMap.erase k s.mapDirtyWitnessData = s.mapDirtyWitnessData :=
    StdMap.erase_eq_self ((StdMap.find_eq_none_iff _ _).1 hd)
  by_cases hlt : Size s < cap
  · have h2 := AddNew_of_lt v hk hlt
    rw [h1] at h2
    cases h2
    simp only [DirtyCacheSize, hkd]
    exact le_refl _
  · have hfull : cap ≤ Size s := by omega
    rcases list_eq_nil_or_concat s.cache_list with hl | ⟨init, last, hl⟩
    · have hc0 : cap = 0 := by
        rw [hl] at hlen
        simp at hlen
        have := hi.2.2.2
        omega
      subst hc0
      have h2 := AddNew_of_nil v hk hl
      rw [h1] at h2
      cases h2
      simp only [DirtyCacheSize, hkd]
      exact le_refl _
    · have h2 := AddNew_of_full v hk hfull hl
      rw [h1] at h2
      cases h2
      have hlast : last ∈ s.cache_list := by rw [hl]; simp
      have hlh : last.first ∈ hotKeys s := List.mem_map.2 ⟨last, hlast, rfl⟩
      have hkl : last.first ≠ k := by
        intro h
        exact (find_loc_eq_none_iff hi.2.1 k).1 hk (h ▸ hlh)
      have hld : last.first ∉ s.mapDirtyWitnessData.map Prod.fst :=
        hi.2.2.1 _ ((mem_keys_loc_iff hi.2.1 _).2 hlh)
      have e1 : StdMap.erase k ((last.first, last.second) :: s.mapDirtyWitnessData) =
          (last.first, last.second) :: StdMap.erase k s.mapDirtyWitnessData :=
        StdMap.erase_cons_ne hkl _
      simp only [DirtyCacheSize, StdMap.size, StdMap.assign, StdMap.erase_eq_self hld, e1,
        hkd, List.length_cons]
      omega

end PrecomputeLRUCache

/-! ## Membership queries and the writes of a flush -/

namespace PrecomputeLRUCache

variable {K V W : Type} [DecidableEq K]

theorem count_eq_zero_iff_find (k : K) {A : Type} (m : List (K × A)) :
    StdMap.count k m = 0 ↔ StdMap.find k m = none := by
  unfold StdMap.count
  cases StdMap.find k m <;> simp

theorem count_pos_iff_mem (k : K) {A : Type} (m : List (K × A)) :
    StdMap.count k m > 0 ↔ k ∈ m.map Prod.fst := by
  rw [← StdMap.count_ne_zero_iff]
  omega

theorem Contains_eq_true_iff (k : K) (s : PrecomputeLRUCache K V) :
    Contains k s = true ↔
      k ∈ s.mapCacheLocation.map Prod.fst ∨ k ∈ s.mapDirtyWitnessData.map Prod.fst := by
  unfold Contains
  rw [Bool.or_eq_true, decide_eq_true_iff, decide_eq_true_iff, count_pos_iff_mem,
    count_pos_iff_mem]

theorem Contains_eq_false_iff (k : K) (s : PrecomputeLRUCache K V) :
    Contains k s = false ↔
      StdMap.find k s.mapCacheLocation = none ∧
        StdMap.find k s.mapDirtyWitnessData = none := by
  rw [← Bool.not_eq_true, Contains_eq_true_iff, StdMap.find_eq_none_iff,
    StdMap.find_eq_none_iff]
  tauto

theorem flush_writes (s : PrecomputeLRUCache K V) (db : List (K × V)) :
    (FlushToDisk s db).2 = db ++ (s.mapDirtyWitnessData ++ entries s) := by
  simp [FlushToDisk, entries]

/-- Under the invariants no key occurs twice among the dirty and hot entries. -/
theorem nodup_all_keys {cap : Nat} {s : PrecomputeLRUCache K V} (hi : Inv cap s) :
    ((s.mapDirtyWitnessData ++ entries s).map Prod.fst).Nodup := by
  have hk : (entries s).map Prod.fst = hotKeys s := by
    simp [entries, hotKeys, List.map_map, Function.comp_def]
  rw [List.map_append, hk, List.nodup_append]
  refine ⟨hi.1.2.2, hi.2.1.1, ?_⟩
  intro x hx1 hx2
  exact hi.2.2.1 x ((mem_keys_loc_iff hi.2.1 x).2 hx2) hx1

end PrecomputeLRUCache

/-! ## Keys entering and leaving the dirty index -/

namespace PrecomputeLRUCache

variable {K V W : Type} [DecidableEq K]

theorem not_new_of_erase {k x : K} {d : V} {m : List (K × V)}
    (h1 : StdMap.find x (StdMap.erase k m) = some d) (h2 : StdMap.find x m = none) :
    False := by
  rw [StdMap.find_erase, h2] at h1
  split at h1 <;> cases h1

theorem Remove_dirty {cap : Nat} {s : PrecomputeLRUCache K V} (hi : Inv cap s) (k : K) :
    ∃ s1, Remove k s = some s1 ∧
      s1.mapDirtyWitnessData = StdMap.erase k s.mapDirtyWitnessData := by
  cases hf : StdMap.find k s.mapCacheLocation with
  | none => exact ⟨_, Remove_miss hf, rfl⟩
  | some it =>
    obtain ⟨n, hn, rfl, rfl⟩ := (find_loc_eq_some_iff hi.1 hi.2.1 k it).1 hf
    exact ⟨_, Remove_hot hi.1 hi.2.1 hn, rfl⟩

/-- The dirty index after `AddToCache(k, v)` on a hot key. -/
theorem AddToCache_hot_dirty {cap : Nat} {s : PrecomputeLRUCache K V} (hi : Inv cap s)
    {k : K} {it : Nat} (v : V) (hf : StdMap.find k s.mapCacheLocation = some it) :
    ∃ s1, AddToCache cap k v s = some s1 ∧
      s1.mapDirtyWitnessData = s.mapDirtyWitnessData ∧
      s1.mapCacheLocation = s.mapCacheLocation ∧
      entries s1 = (k, v) :: StdMap.erase k (entries s) := by
  obtain ⟨n, hn, rfl, rfl⟩ := (find_loc_eq_some_iff hi.1 hi.2.1 k it).1 hf
  have hkd : n.first ∉ s.mapDirtyWitnessData.map Prod.fst :=
    hi.2.2.1 _ ((mem_keys_loc_iff hi.2.1 _).2 (List.mem_map.2 ⟨n, hn, rfl⟩))
  refine ⟨_, AddToCache_hot hi.1 hi.2.1 hi.2.2.2 hn v, StdMap.erase_eq_self hkd, rfl, ?_⟩
  simp only [entries, List.map_cons]
  rw [entries_unlink hi.1 hi.2.1 hn]
  rfl

/-- Every operation, under the invariants: a key that is new in the dirty index
is the old tail of the recency list with its old value. -/
theorem apply_dirty_new {cap : Nat} (toData : V → W) (toCache : W → V)
    {s : PrecomputeLRUCache K V} (hi : Inv cap s) (op : Op K V) :
    ∃ s1, Op.apply cap toData toCache op s = some s1 ∧
      ∀ x d, StdMap.find x s1.mapDirtyWitnessData = some d →
        StdMap.find x s.mapDirtyWitnessData = none →
        (entries s).getLast? = some (x, d) := by
  cases op with
  | put k v =>
    cases hf : StdMap.find k s.mapCacheLocation with
    | some it =>
      obtain ⟨s1, h1, hd1, _, _⟩ := AddToCache_hot_dirty hi v hf
      refine ⟨s1, h1, fun x d hx hn => ?_⟩
      rw [hd1, hn] at hx
      cases hx
    | none =>
      obtain ⟨s1, h1, _, _⟩ := AddNew_inv hi v hf
      refine ⟨s1, (AddToCache_eq_AddNew hi v hf).trans h1, ?_⟩
      exact AddNew_dirty_new hi hf h1
  | get k =>
    cases hd : StdMap.find k s.mapDirtyWitnessData with
    | none =>
      obtain ⟨r, h1, _, hd1⟩ := GetWitnessData_clean_frame toData toCache hi hd
      refine ⟨r.2, by simp [Op.apply, h1], fun x d hx hn => ?_⟩
      rw [hd1, hn] at hx
      cases hx
    | some d0 =>
      have hk := not_hot_of_dirty hi hd
      obtain ⟨sA, hA, hiA, hdA⟩ := AddNew_inv hi (toCache (toData d0)) hk
      obtain ⟨r, h1, _, hd1⟩ := GetWitnessData_clean_frame toData toCache hiA hdA
      rw [← GetWitnessData_dirty cap toData toCache hd hA hdA] at h1
      refine ⟨r.2, by simp [Op.apply, h1], fun x d hx hn => ?_⟩
      rw [hd1] at hx
      exact AddNew_dirty_new hi hk hA x d hx hn
  | remove k =>
    obtain ⟨s1, h1, hd1⟩ := Remove_dirty hi k
    refine ⟨s1, h1, fun x d hx hn => ?_⟩
    rw [hd1] at hx
    exact (not_new_of_erase hx hn).elim
  | flush =>
    refine ⟨_, rfl, fun x d hx _ => ?_⟩
    simp [FlushToDisk, StdMap.find] at hx
  | clear =>
    refine ⟨_, rfl, fun x d hx _ => ?_⟩
    simp [Clear, StdMap.find] at hx

/-- Every operation, under the invariants, on a key that is not in the dirty
index (or without a key, other than flush and clear): the dirty index does not
shrink. -/
theorem apply_dirty_size {cap : Nat} (toData : V → W) (toCache : W → V)
    {s : PrecomputeLRUCache K V} (hi : Inv cap s) (op : Op K V) :
    ∃ s1, Op.apply cap toData toCache op s = some s1 ∧
      (DirtyCacheSize s1 < DirtyCacheSize s →
        op = Op.flush ∨ op = Op.clear ∨
          ∃ k, StdMap.count k s.mapDirtyWitnessData > 0 ∧
            (op = Op.get k ∨ op = Op.remove k ∨ ∃ v, op = Op.put k v)) := by
  obtain ⟨s1, h1, _⟩ := Op.apply_inv toData toCache hi op
  refine ⟨s1, h1, fun hlt => ?_⟩
  cases op with
  | flush => exact Or.inl rfl
  | clear => exact Or.inr (Or.inl rfl)
  | put k v =>
    right; right
    refine ⟨k, ?_, Or.inr (Or.inr ⟨v, rfl⟩)⟩
    by_contra hc
    have hd : StdMap.find k s.mapDirtyWitnessData = none :=
      (count_eq_zero_iff_find k _).1 (by omega)
    cases hf : StdMap.find k s.mapCacheLocation with
    | some it =>
      obtain ⟨s2, h2, hd2, _, _⟩ := AddToCache_hot_dirty hi v hf
      have h3 : AddToCache cap k v s = some s1 := h1
      rw [h2] at h3
      cases h3
      simp only [DirtyCacheSize, hd2] at hlt
      omega
    | none =>
      have h3 : AddToCache cap k v s = some s1 := h1
      rw [AddToCache_eq_AddNew hi v hf] at h3
      have := AddNew_dirty_size hi hf hd h3
      omega
  | get k =>
    right; right
    refine ⟨k, ?_, Or.inl rfl⟩
    by_contra hc
    have hd : StdMap.find k s.mapDirtyWitnessData = none :=
      (count_eq_zero_iff_find k _).1 (by omega)
    obtain ⟨r, h2, _, hd2⟩ := GetWitnessData_clean_frame toData toCache hi hd
    simp only [Op.apply, h2, Option.some.injEq] at h1
    subst h1
    simp only [DirtyCacheSize, hd2] at hlt
    omega
  | remove k =>
    right; right
    refine ⟨k, ?_, Or.inr (Or.inl rfl)⟩
    by_contra hc
    have hd : StdMap.find k s.mapDirtyWitnessData = none :=
      (count_eq_zero_iff_find k _).1 (by omega)
    obtain ⟨s2, h2, hd2⟩ := Remove_dirty hi k
    have h3 : Remove k s = some s1 := h1
    rw [h2] at h3
    cases h3
    rw [StdMap.erase_eq_self ((StdMap.find_eq_none_iff _ _).1 hd)] at hd2
    simp only [DirtyCacheSize, hd2] at hlt
    omega

end PrecomputeLRUCache

/-! ## Totality of the internal steps and `AddNew` on a hot key -/

namespace PrecomputeLRUCache

variable {K V W : Type} [DecidableEq K]

/-- `AddNew` never fails: after `push_front` the list has a last element. -/
theorem AddNew_total (cap : Nat) (k : K) (v : V) (s : PrecomputeLRUCache K V) :
    ∃ s1, AddNew cap k v s = some s1 := by
  have hne : ∃ last, (StdList.push_front k v s.cache_list).getLast? = some last := by
    cases hg : (StdList.push_front k v s.cache_list).getLast? with
    | none =>
      rw [List.getLast?_eq_none_iff] at hg
      simp [StdList.push_front] at hg
    | some last => exact ⟨last, rfl⟩
  obtain ⟨last, hl⟩ := hne
  obtain ⟨s2, h2⟩ : ∃ s2, MoveLastToDirtyIfFull cap
      (mk (StdList.push_front k v s.cache_list)
        (StdMap.insert k (StdList.freshId s.cache_list) s.mapCacheLocation)
        s.mapDirtyWitnessData) = some s2 := by
    unfold MoveLastToDirtyIfFull
    simp only [hl]
    split <;> exact ⟨_, rfl⟩
  unfold AddNew
  simp only [h2]
  exact ⟨_, rfl⟩

/-- With the list/index bijection, the eviction step never fails: the index is
as long as the list, so an over-full index means a non-empty list. -/
theorem MoveLast_total (c : Nat) {s : PrecomputeLRUCache K V} (hb : Bijection s) :
    ∃ s1, MoveLastToDirtyIfFull c s = some s1 := by
  by_cases h : Size s ≤ c
  · exact ⟨s, MoveLast_of_le h⟩
  · rcases list_eq_nil_or_concat s.cache_list with hl | ⟨init, last, hl⟩
    · have := size_eq_length hb
      rw [hl] at this
      simp at this
      omega
    · exact ⟨_, MoveLast_of_gt (by omega) hl⟩

theorem MoveDirtyToLRU_total (cap : Nat) (toData : V → W) (toCache : W → V) (k : K)
    (s : PrecomputeLRUCache K V) (hk : StdMap.count k s.mapDirtyWitnessData ≠ 0) :
    ∃ s1, MoveDirtyToLRU cap toData toCache k s = some s1 := by
  unfold MoveDirtyToLRU
  cases hf : StdMap.find k s.mapDirtyWitnessData with
  | none => exact absurd ((count_eq_zero_iff_find k _).2 hf) hk
  | some d => exact AddNew_total cap k _ s

/-- `AddNew` on a key that is already in the hot index: a second node is pushed,
the index and its size stay as they are, nothing is evicted. -/
theorem AddNew_of_hot {cap : Nat} {s : PrecomputeLRUCache K V} {k : K} {it : Nat} (v : V)
    (hf : StdMap.find k s.mapCacheLocation = some it) (hs : Size s ≤ cap) :
    AddNew cap k v s =
      some (mk (StdList.push_front k v s.cache_list) s.mapCacheLocation
        (StdMap.erase k s.mapDirtyWitnessData)) := by
  unfold AddNew
  simp only [StdMap.insert, hf]
  rw [MoveLast_of_le]
  exact hs

end PrecomputeLRUCache

/-! ## The recency list follows the rule of the specification -/

namespace PrecomputeLRUCache

variable {K V W : Type} [DecidableEq K]

theorem hotKeys_length {cap : Nat} {s : PrecomputeLRUCache K V} (hi : Inv cap s) :
    (hotKeys s).length ≤ cap := by
  have h1 := size_eq_length hi.2.1
  have h2 := hi.2.2.2
  simp only [hotKeys, List.length_map]
  omega

/-- After `AddToCache(k, v)` the keys of the recency list are those the
recency rule gives. -/
theorem AddToCache_hotKeys {cap : Nat} {s : PrecomputeLRUCache K V} (hi : Inv cap s)
    (k : K) (v : V) :
    ∃ s1, AddToCache cap k v s = some s1 ∧ Inv cap s1 ∧
      hotKeys s1 = SpecRecency.put cap (hotKeys s) k := by
  obtain ⟨s1, h1, hi1⟩ := AddToCache_inv hi k v
  refine ⟨s1, h1, hi1, ?_⟩
  have hlen1 := hotKeys_length hi1
  unfold SpecRecency.put
  cases hf : StdMap.find k s.mapCacheLocation with
  | some it =>
    obtain ⟨n, hn, rfl, rfl⟩ := (find_loc_eq_some_iff hi.1 hi.2.1 k it).1 hf
    have h2 := AddToCache_hot hi.1 hi.2.1 hi.2.2.2 hn v
    rw [h1] at h2
    cases h2
    have hk : hotKeys (mk ({ n with second := v } :: StdList.unlink n.id s.cache_list)
        s.mapCacheLocation (StdMap.erase n.first s.mapDirtyWitnessData)) =
        n.first :: (hotKeys s).filter (fun x => decide (x ≠ n.first)) := by
      simp only [hotKeys, List.map_cons]
      rw [hotKeys_unlink hi.1 hi.2.1 hn]
      rfl
    rw [hk] at hlen1 ⊢
    exact (List.take_of_length_le hlen1).symm
  | none =>
    have hkh : k ∉ hotKeys s := (find_loc_eq_none_iff hi.2.1 k).1 hf
    have hfl : (hotKeys s).filter (fun x => decide (x ≠ k)) = hotKeys s := by
      rw [List.filter_eq_self]
      intro x hx
      simp only [decide_eq_true_eq]
      exact fun h => hkh (h ▸ hx)
    rw [hfl]
    rw [AddToCache_eq_AddNew hi v hf] at h1
    have hlen := size_eq_length hi.2.1
    by_cases hlt : Size s < cap
    · have h4 := AddNew_of_lt v hf hlt
      rw [h1] at h4
      cases h4
      have hk : hotKeys (mk (StdList.push_front k v s.cache_list)
          ((k, StdList.freshId s.cache_list) :: s.mapCacheLocation)
          (StdMap.erase k s.mapDirtyWitnessData)) = k :: hotKeys s := rfl
      rw [hk] at hlen1 ⊢
      exact (List.take_of_length_le hlen1).symm
    · have hfull : cap ≤ Size s := by omega
      rcases list_eq_nil_or_concat s.cache_list with hl | ⟨init, last, hl⟩
      · have hc0 : cap = 0 := by
          rw [hl] at hlen
          simp at hlen
          have := hi.2.2.2
          omega
        subst hc0
        have h4 := AddNew_of_nil v hf hl
        rw [h1] at h4
        cases h4
        rfl
      · have h4 := AddNew_of_full v hf hfull hl
        rw [h1] at h4
        cases h4
        have hk : hotKeys s = init.map Node.first ++ [last.first] := by
          simp [hotKeys, hl]
        rw [hk]
        have hc : (k :: init.map Node.first).length = cap := by
          have := hi.2.2.2
          rw [hl] at hlen
          simp only [List.length_cons, List.length_append, List.length_map,
            List.length_nil] at hlen ⊢
          omega
        exact (List.take_left' hc).symm

end PrecomputeLRUCache

namespace Op

variable {K V W : Type} [DecidableEq K]

theorem run_puts_hotKeys {cap : Nat} (toData : V → W) (toCache : W → V)
    (puts : List (K × V)) :
    ∀ s : PrecomputeLRUCache K V, PrecomputeLRUCache.Inv cap s →
      ∃ s1, run cap toData toCache (puts.map (fun e => Op.put e.1 e.2)) s = some s1 ∧
        PrecomputeLRUCache.hotKeys s1 =
          puts.foldl (fun ks e => SpecRecency.put cap ks e.1)
            (PrecomputeLRUCache.hotKeys s) := by
  induction puts with
  | nil => exact fun s _ => ⟨s, rfl, rfl⟩
  | cons e puts ih =>
    intro s hi
    obtain ⟨s1, h1, hi1, hk1⟩ := PrecomputeLRUCache.AddToCache_hotKeys hi e.1 e.2
    obtain ⟨s2, h2, hk2⟩ := ih s1 hi1
    refine ⟨s2, by simp [run, apply, h1, h2], ?_⟩
    rw [hk2, hk1]
    rfl

end Op

/-! ## An overflowing put evicts the tail -/

namespace PrecomputeLRUCache

variable {K V W : Type} [DecidableEq K]

/-- In a full hot tier whose least recently used key is `b`, a put of a key
that is not hot evicts `b` into the dirty index with its value and keeps every
other hot key `a`. -/
theorem overflow_put_evicts_tail {cap : Nat} {s : PrecomputeLRUCache K V} (hi : Inv cap s)
    (hfull : Size s = cap) {a b c : K} (hab : a ≠ b)
    (ha : StdMap.count a s.mapCacheLocation > 0)
    (htail : (hotKeys s).getLast? = some b)
    (hc : StdMap.find c s.mapCacheLocation = none) (v : V) :
    ∃ s3, AddToCache cap c v s = some s3 ∧
      StdMap.count a s3.mapCacheLocation > 0 ∧
      StdMap.count b s3.mapCacheLocation = 0 ∧
      StdMap.count b s3.mapDirtyWitnessData > 0 ∧
      StdMap.find b s3.mapDirtyWitnessData = StdMap.find b (entries s) := by
  rcases list_eq_nil_or_concat s.cache_list with hl | ⟨init, last, hl⟩
  · simp [hotKeys, hl] at htail
  · have hlb : last.first = b := by
      simpa [hotKeys, hl] using htail
    have hlast : last ∈ s.cache_list := by rw [hl]; simp
    have hbh : b ∈ hotKeys s := List.mem_map.2 ⟨last, hlast, hlb⟩
    have hcb : b ≠ c := by
      intro h
      exact (find_loc_eq_none_iff hi.2.1 c).1 hc (h ▸ hbh)
    have hak : a ∈ s.mapCacheLocation.map Prod.fst := (count_pos_iff_mem a _).1 ha
    have hca : a ≠ c := by
      intro h
      exact (StdMap.find_eq_none_iff _ _).1 hc (h ▸ hak)
    have h1 := AddNew_of_full v hc (le_of_eq hfull.symm) hl
    rw [hlb] at h1
    refine ⟨_, (AddToCache_eq_AddNew hi v hc).trans h1, ?_, ?_, ?_, ?_⟩
    · rw [count_pos_iff_mem, StdMap.mem_keys_erase]
      exact ⟨List.mem_cons_of_mem _ hak, hab⟩
    · rw [count_eq_zero_iff_find]
      exact StdMap.find_erase_self _ _
    · rw [count_pos_iff_mem, StdMap.mem_keys_erase]
      exact ⟨by simp [StdMap.assign], hcb⟩
    · have hv := find_entries_of_mem hi.2.1 hlast
      rw [hlb] at hv
      rw [hv, StdMap.find_erase_ne hcb]
      simp [StdMap.assign, StdMap.find]

end PrecomputeLRUCache

/-! ## Capacity zero: the dirty index stays empty -/

namespace Op

variable {K V W : Type} [DecidableEq K]

theorem apply_cap_zero_dirty (toData : V → W) (toCache : W → V)
    {s s1 : PrecomputeLRUCache K V} (hi : PrecomputeLRUCache.Inv 0 s)
    (hd0 : s.mapDirtyWitnessData = []) (op : Op K V)
    (h : apply 0 toData toCache op s = some s1) : s1.mapDirtyWitnessData = [] := by
  obtain ⟨s2, h2, hnew⟩ := PrecomputeLRUCache.apply_dirty_new toData toCache hi op
  rw [h] at h2
  cases h2
  have hl : s.cache_list = [] := by
    have h1 := PrecomputeLRUCache.size_eq_length hi.2.1
    have h3 := hi.2.2.2
    exact List.length_eq_zero.1 (by omega)
  cases hd : s1.mapDirtyWitnessData with
  | nil => rfl
  | cons e t =>
    have hf : StdMap.find e.1 s1.mapDirtyWitnessData = some e.2 := by
      rw [hd]
      simp [StdMap.find]
    have hs : StdMap.find e.1 s.mapDirtyWitnessData = none := by
      rw [hd0]
      rfl
    have := hnew e.1 e.2 hf hs
    simp [PrecomputeLRUCache.entries, hl] at this

/-- At capacity 0 every run of public operations that starts with an empty
dirty index ends with an empty dirty index. -/
theorem run_cap_zero_dirty (toData : V → W) (toCache : W → V) (ops : List (Op K V)) :
    ∀ s s1 : PrecomputeLRUCache K V, PrecomputeLRUCache.Inv 0 s →
      s.mapDirtyWitnessData = [] → run 0 toData toCache ops s = some s1 →
      s1.mapDirtyWitnessData = [] := by
  induction ops with
  | nil =>
    intro s s1 _ hd h
    simp only [run, Option.some.injEq] at h
    rw [← h]
    exact hd
  | cons op ops ih =>
    intro s s1 hi hd h
    obtain ⟨s2, h2, hi2⟩ := apply_inv toData toCache hi op
    simp only [run, h2] at h
    exact ih s2 s1 hi2 (apply_cap_zero_dirty toData toCache hi hd op h2) h

end Op

/-! ## The claims -/

section Claims

variable {K V W : Type} [DecidableEq K]

open PrecomputeLRUCache

/-- C1. Map refinement: for every capacity of at least one and every sequence of
`put` (AddToCache), `get` (GetWitnessData) and `remove` (Remove) calls applied to
the empty cache, with the value conversions taken as the identity, the run is
defined, a `get k` issued next returns exactly what the plain key-value map
holds for `k` after the same calls (the value of the latest `put k v` not
followed by `remove k`, else absent), and `Contains k` is true exactly when the
plain map has `k`. -/
theorem C1_map_refinement (cap : Nat) (hcap : 1 ≤ cap) (ops : List (Op K V))
    (hops : ∀ op ∈ ops, op.isMapOp = true) (k : K) :
    ∃ s s1, Op.run cap id id ops (empty : PrecomputeLRUCache K V) = some s ∧
      GetWitnessData cap id id k s = some (SpecMap.run ops (fun _ => none) k, s1) ∧
      (Contains k s = true ↔ (SpecMap.run ops (fun _ => none) k).isSome = true) := by
  obtain ⟨s, h1, hi, hl⟩ :=
    Op.run_refines hcap ops hops empty (fun _ => none) (inv_empty cap) (fun _ => rfl)
  obtain ⟨s1, h2, _, _⟩ := GetWitnessData_lookup hcap hi k
  refine ⟨s, s1, h1, ?_, ?_⟩
  · rw [h2, hl k]
  · rw [Contains_iff hi.2.1, hl k]

/-- Instance of C1: capacity 2, three inserts (the third evicts key 1 to the
dirty tier), a read of key 1 (promotion) and a removal of key 2; then key 1 is
read. -/
theorem C1_map_refinement_witness :
    ∃ s s1, Op.run 2 id id [Op.put 1 10, Op.put 2 20, Op.put 3 30, Op.get 1, Op.remove 2]
        (empty : PrecomputeLRUCache Nat Nat) = some s ∧
      GetWitnessData 2 id id 1 s =
        some (SpecMap.run [Op.put 1 10, Op.put 2 20, Op.put 3 30, Op.get 1, Op.remove 2]
          (fun _ => none) 1, s1) ∧
      (Contains 1 s = true ↔
        (SpecMap.run [Op.put 1 10, Op.put 2 20, Op.put 3 30, Op.get 1, Op.remove 2]
          (fun _ => none) 1).isSome = true) :=
  C1_map_refinement 2 (by decide)
    [Op.put 1 10, Op.put 2 20, Op.put 3 30, Op.get 1, Op.remove 2] (by decide) 1

/-- C2. Capacity invariant: for every capacity and every sequence of public
operations (AddToCache, GetWitnessData, Remove, FlushToDisk, Clear) applied to
the empty cache, after each operation of the sequence (after the first `n`
calls, for every `n`) the run is defined and `Size() ≤ CAPACITY`. -/
theorem C2_capacity_invariant (cap : Nat) (toData : V → W) (toCache : W → V)
    (ops : List (Op K V)) (n : Nat) :
    ∃ s, Op.run cap toData toCache (ops.take n) (empty : PrecomputeLRUCache K V) = some s ∧
      Size s ≤ cap := by
  obtain ⟨s, h, hi⟩ := Op.run_inv toData toCache (ops.take n) (inv_empty cap)
  exact ⟨s, h, hi.2.2.2⟩

/-- C3. Tier disjointness: in every state reached from the empty cache by a
sequence of AddToCache, GetWitnessData, Remove, FlushToDisk and Clear calls, no
key is in the hot index (mapCacheLocation) and in the dirty index
(mapDirtyWitnessData) at once. -/
theorem C3_tier_disjointness (cap : Nat) (toData : V → W) (toCache : W → V)
    (ops : List (Op K V)) :
    ∃ s, Op.run cap toData toCache ops (empty : PrecomputeLRUCache K V) = some s ∧
      ∀ k, ¬ (StdMap.count k s.mapCacheLocation > 0 ∧
        StdMap.count k s.mapDirtyWitnessData > 0) := by
  obtain ⟨s, h, hi⟩ := Op.run_inv toData toCache ops (inv_empty cap)
  refine ⟨s, h, ?_⟩
  rintro k ⟨h1, h2⟩
  have h3 := (StdMap.count_ne_zero_iff k s.mapCacheLocation).1 (by omega)
  have h4 := (StdMap.count_ne_zero_iff k s.mapDirtyWitnessData).1 (by omega)
  exact hi.2.2.1 k h3 h4

/-- C4. Hot index / recency list bijection: in every state reached from the
empty cache by a sequence of AddToCache, GetWitnessData, Remove, FlushToDisk and
Clear calls, the recency list holds no key twice, a key is in the list exactly
when it is in the hot index, every index entry is an iterator to a list node
carrying that entry's key, and `Size()` is the length of the list. -/
theorem C4_index_list_bijection (cap : Nat) (toData : V → W) (toCache : W → V)
    (ops : List (Op K V)) :
    ∃ s, Op.run cap toData toCache ops (empty : PrecomputeLRUCache K V) = some s ∧
      (s.cache_list.map Node.first).Nodup ∧
      (∀ k, k ∈ s.cache_list.map Node.first ↔
        StdMap.count k s.mapCacheLocation > 0) ∧
      (∀ k it, StdMap.find k s.mapCacheLocation = some it →
        ∃ n, StdList.deref it s.cache_list = some n ∧ n.first = k) ∧
      Size s = s.cache_list.length := by
  obtain ⟨s, h, hw, hb, _, _⟩ := Op.run_inv toData toCache ops (inv_empty cap)
  refine ⟨s, h, hb.1, ?_, ?_, size_eq_length hb⟩
  · intro k
    have h1 := StdMap.count_ne_zero_iff k s.mapCacheLocation
    rw [mem_keys_loc_iff hb] at h1
    unfold hotKeys at h1
    rw [← h1]
    omega
  · intro k it hf
    obtain ⟨n, hn, h1, h2⟩ := (find_loc_eq_some_iff hw hb k it).1 hf
    exact ⟨n, h2 ▸ StdList.deref_of_mem hw.1 hn, h1⟩

/-- C5. Postcondition of put: for every capacity of at least one, every state
satisfying the invariants and every key `k` and value `v`, AddToCache(k, v) is
defined and afterwards the head of the recency list is `(k, v)`, `k` is in the
hot index, `k` is not in the dirty index, and GetWitnessData(k) issued next
returns `v`. -/
theorem C5_put_postcondition (cap : Nat) (hcap : 1 ≤ cap) (s : PrecomputeLRUCache K V)
    (hi : Inv cap s) (k : K) (v : V) :
    ∃ s1, AddToCache cap k v s = some s1 ∧
      (entries s1).head? = some (k, v) ∧
      StdMap.count k s1.mapCacheLocation > 0 ∧
      StdMap.count k s1.mapDirtyWitnessData = 0 ∧
      ∃ s2, GetWitnessData cap id id k s1 = some (some v, s2) := by
  obtain ⟨s1, h1, hi1, hh, hl⟩ := AddToCache_lookup hcap hi k v
  have hk : k ∈ s1.mapCacheLocation.map Prod.fst := by
    rw [mem_keys_loc_iff hi1.2.1]
    unfold entries at hh
    unfold hotKeys
    cases hc : s1.cache_list with
    | nil => simp [hc] at hh
    | cons n t =>
      simp only [hc, List.map_cons, List.head?_cons, Option.some.injEq, Prod.mk.injEq] at hh
      simp [hh.1]
  refine ⟨s1, h1, hh, ?_, ?_, ?_⟩
  · have := (StdMap.count_ne_zero_iff k s1.mapCacheLocation).2 hk
    omega
  · have := hi1.2.2.1 k hk
    rw [← StdMap.count_ne_zero_iff] at this
    omega
  · obtain ⟨s2, h2, _, _⟩ := GetWitnessData_lookup hcap hi1 k
    refine ⟨s2, ?_⟩
    rw [h2, hl k, if_pos rfl]

/-- Instance of C5: capacity 2, hot tier holding keys 3 and 2, dirty tier
holding key 1 with a stale value; key 1 is put with a new value. -/
theorem C5_put_postcondition_witness :
    ∃ s1, AddToCache 2 1 11
        (mk [⟨3, 3, 30⟩, ⟨2, 2, 20⟩] [(3, 3), (2, 2)] [(1, 10)] : PrecomputeLRUCache Nat Nat) =
          some s1 ∧
      (entries s1).head? = some (1, 11) ∧
      StdMap.count 1 s1.mapCacheLocation > 0 ∧
      StdMap.count 1 s1.mapDirtyWitnessData = 0 ∧
      ∃ s2, GetWitnessData 2 id id 1 s1 = some (some 11, s2) :=
  C5_put_postcondition 2 (by decide)
    (mk [⟨3, 3, 30⟩, ⟨2, 2, 20⟩] [(3, 3), (2, 2)] [(1, 10)]) (by decide) 1 11

/-- C6. Recency ordering (least recently used is evicted first): for every
state satisfying the invariants in which two distinct keys `a` and `b` are both
in the hot tier, GetWitnessData(a) followed by any sequence of AddToCache calls
on keys other than `a` and `b` is defined, and
* the read moves `a` to the front of the recency list, in front of the other
  keys in their old order;
* every put then follows the recency rule of the specification
  (`SpecRecency.put`: the key goes to the front, the tail is dropped beyond
  CAPACITY);
* neither `a` nor `b` is lost (each is still in one of the two tiers);
* if `a` is no longer in the hot index then `b` is not in it either and sits in
  the dirty index: `b` is evicted to the dirty tier no later than `a`;
* the instance of the specification: when the hot tier is full and `b` is the
  least recently used key after the read (as after put(a), put(b), get(a) with
  CAPACITY = 2), one more put of a key that is not hot evicts `b` into the dirty
  index with its value and keeps `a` hot. -/
theorem C6_recency_ordering (cap : Nat) (toData : V → W) (toCache : W → V)
    (s : PrecomputeLRUCache K V) (hi : Inv cap s) (a b : K) (hab : a ≠ b)
    (ha : StdMap.count a s.mapCacheLocation > 0)
    (hb : StdMap.count b s.mapCacheLocation > 0)
    (puts : List (K × V)) (hputs : ∀ e ∈ puts, e.1 ≠ a ∧ e.1 ≠ b) :
    ∃ r s2, GetWitnessData cap toData toCache a s = some r ∧
      Op.run cap toData toCache (puts.map (fun e => Op.put e.1 e.2)) r.2 = some s2 ∧
      hotKeys r.2 = a :: (hotKeys s).filter (fun x => decide (x ≠ a)) ∧
      hotKeys s2 = puts.foldl (fun ks e => SpecRecency.put cap ks e.1) (hotKeys r.2) ∧
      Contains a s2 = true ∧ Contains b s2 = true ∧
      (StdMap.count a s2.mapCacheLocation = 0 →
        StdMap.count b s2.mapCacheLocation = 0 ∧
          StdMap.count b s2.mapDirtyWitnessData > 0) ∧
      (∀ c v, Size s = cap → (hotKeys r.2).getLast? = some b →
        StdMap.count c s.mapCacheLocation = 0 →
        ∃ s3, AddToCache cap c v r.2 = some s3 ∧
          StdMap.count a s3.mapCacheLocation > 0 ∧
          StdMap.count b s3.mapCacheLocation = 0 ∧
          StdMap.count b s3.mapDirtyWitnessData > 0 ∧
          StdMap.find b s3.mapDirtyWitnessData = StdMap.find b (entries s)) := by
  have hak : a ∈ s.mapCacheLocation.map Prod.fst :=
    (StdMap.count_ne_zero_iff a s.mapCacheLocation).1 (by omega)
  have hbk : b ∈ s.mapCacheLocation.map Prod.fst :=
    (StdMap.count_ne_zero_iff b s.mapCacheLocation).1 (by omega)
  have hcap : 1 ≤ cap := by
    have h1 := hi.2.2.2
    unfold Size StdMap.size at h1
    cases hc : s.mapCacheLocation with
    | nil => simp [hc] at hak
    | cons e t =>
      rw [hc] at h1
      simp only [List.length_cons] at h1
      omega
  have had : StdMap.find a s.mapDirtyWitnessData = none :=
    (StdMap.find_eq_none_iff _ _).2 (hi.2.2.1 a hak)
  obtain ⟨s1, hr, hi1, hl1⟩ := GetWitnessData_lookup_clean toData toCache hi had
  -- the state after the read, spelled out
  obtain ⟨n, hn, hna, hs1⟩ : ∃ n, n ∈ s.cache_list ∧ n.first = a ∧
      s1 = mk (n :: StdList.unlink n.id s.cache_list) s.mapCacheLocation
        s.mapDirtyWitnessData := by
    cases hf : StdMap.find a s.mapCacheLocation with
    | none => exact absurd hak ((StdMap.find_eq_none_iff _ _).1 hf)
    | some it =>
      obtain ⟨n, hn, hna, _⟩ := (find_loc_eq_some_iff hi.1 hi.2.1 a it).1 hf
      subst hna
      have h2 := GetWitnessData_hot cap toData toCache hi.1 hi.2.1 hn had
      rw [hr] at h2
      exact ⟨n, hn, rfl, (Prod.mk.inj (Option.some.inj h2)).2⟩
  have hk1 : hotKeys s1 = a :: (hotKeys s).filter (fun x => decide (x ≠ a)) := by
    rw [hs1]
    simp only [hotKeys, List.map_cons]
    rw [hotKeys_unlink hi.1 hi.2.1 hn, hna]
    rfl
  have hloc1 : s1.mapCacheLocation = s.mapCacheLocation := by rw [hs1]
  have hent1 : ∀ x, StdMap.find x (entries s1) = StdMap.find x (entries s) := by
    intro x
    have h := hl1 x
    unfold lookup at h
    have hd1 : s1.mapDirtyWitnessData = s.mapDirtyWitnessData := by rw [hs1]
    rw [hd1] at h
    cases h1 : StdMap.find x (entries s1) with
    | none =>
      have hx1 : x ∉ hotKeys s1 := (find_entries_eq_none_iff s1 x).1 h1
      have hx : x ∉ hotKeys s := by
        rw [← mem_keys_loc_iff hi.2.1, ← hloc1, mem_keys_loc_iff hi1.2.1]
        exact hx1
      exact ((find_entries_eq_none_iff s x).2 hx).symm
    | some d =>
      have hx1 : x ∈ hotKeys s1 := by
        by_contra hc
        rw [(find_entries_eq_none_iff s1 x).2 hc] at h1
        cases h1
      have hx : x ∈ hotKeys s := by
        rw [← mem_keys_loc_iff hi.2.1, ← hloc1, mem_keys_loc_iff hi1.2.1]
        exact hx1
      rw [h1] at h
      cases h2 : StdMap.find x (entries s) with
      | none => exact absurd hx ((find_entries_eq_none_iff s x).1 h2)
      | some d2 =>
        rw [h2] at h
        exact h
  have hpr : Precedes a b (hotKeys s1) := by
    rw [hk1]
    exact Or.inl rfl
  obtain ⟨s2, h2, hi2, hp2⟩ := Op.run_puts_precedes toData toCache puts hputs s1 hi1 hpr
  obtain ⟨s3, h3, hl3⟩ :=
    Op.run_puts_lookup hcap toData toCache puts (fun e he => (hputs e he).2) s1 hi1
  rw [h2] at h3
  cases h3
  obtain ⟨s4, h4, hl4⟩ :=
    Op.run_puts_lookup hcap toData toCache puts (fun e he => (hputs e he).1) s1 hi1
  rw [h2] at h4
  cases h4
  obtain ⟨s5, h5, hk5⟩ := Op.run_puts_hotKeys toData toCache puts s1 hi1
  rw [h2] at h5
  cases h5
  have hca : Contains a s = true := by
    unfold Contains
    simp [ha]
  have hcb : Contains b s = true := by
    unfold Contains
    simp [hb]
  have hca2 : Contains a s2 = true := by
    rw [Contains_iff hi2.2.1, hl4, hl1 a, ← Contains_iff hi.2.1]
    exact hca
  have hcb2 : Contains b s2 = true := by
    rw [Contains_iff hi2.2.1, hl3, hl1 b, ← Contains_iff hi.2.1]
    exact hcb
  refine ⟨_, s2, hr, h2, hk1, hk5, hca2, hcb2, ?_, ?_⟩
  · intro ha0
    have hna2 : a ∉ hotKeys s2 := by
      rw [← mem_keys_loc_iff hi2.2.1, ← StdMap.count_ne_zero_iff]
      omega
    have hnb := precedes_not_mem _ hp2 hna2
    rw [← mem_keys_loc_iff hi2.2.1, ← StdMap.count_ne_zero_iff] at hnb
    unfold Contains at hcb2
    simp only [Bool.or_eq_true, decide_eq_true_eq] at hcb2
    omega
  · intro c v hfull htail hc
    have hc1 : StdMap.find c s1.mapCacheLocation = none := by
      rw [hloc1]
      exact (count_eq_zero_iff_find c _).1 hc
    have hfull1 : Size s1 = cap := by
      unfold Size at hfull ⊢
      rw [hloc1]
      exact hfull
    have ha1 : StdMap.count a s1.mapCacheLocation > 0 := by
      rw [hloc1]
      exact ha
    obtain ⟨s3, e1, e2, e3, e4, e5⟩ :=
      overflow_put_evicts_tail hi1 hfull1 hab ha1 htail hc1 v
    exact ⟨s3, e1, e2, e3, e4, e5.trans (hent1 b)⟩

/-- Instance of C6 from the specification: capacity 2, the state after put(A),
put(B) with A = 1 and B = 2. After get(A) the recency list is [A, B]; the
overflowing put of key 3 evicts B and keeps A; after the puts of keys 3 and 4
the hot tier is [4, 3], A and B are both in the dirty tier, B having left the
hot tier first. -/
theorem C6_recency_ordering_witness :
    ∃ r s2, GetWitnessData 2 id id 1
        (mk [⟨2, 2, 20⟩, ⟨1, 1, 10⟩] [(2, 2), (1, 1)] [] : PrecomputeLRUCache Nat Nat) =
          some r ∧
      Op.run 2 id id ([(3, 30), (4, 40)].map (fun e => Op.put e.1 e.2)) r.2 = some s2 ∧
      hotKeys r.2 = [1, 2] ∧ hotKeys s2 = [4, 3] ∧
      Contains 1 s2 = true ∧ Contains 2 s2 = true ∧
      (StdMap.count 1 s2.mapCacheLocation = 0 ∧
        StdMap.count 2 s2.mapCacheLocation = 0 ∧
        StdMap.count 2 s2.mapDirtyWitnessData > 0) ∧
      (∃ s3, AddToCache 2 3 30 r.2 = some s3 ∧
        StdMap.count 1 s3.mapCacheLocation > 0 ∧
        StdMap.count 2 s3.mapCacheLocation = 0 ∧
        StdMap.count 2 s3.mapDirtyWitnessData > 0 ∧
        StdMap.find 2 s3.mapDirtyWitnessData = some 20) := by
  obtain ⟨r, s2, h1, h2, h3, h4, h5, h6, h7, h8⟩ :=
    C6_recency_ordering 2 id id
      (mk [⟨2, 2, 20⟩, ⟨1, 1, 10⟩] [(2, 2), (1, 1)] [] : PrecomputeLRUCache Nat Nat)
      (by decide) 1 2 (by decide) (by decide) (by decide) [(3, 30), (4, 40)] (by decide)
  have e1 : r = (some 10, mk [⟨1, 1, 10⟩, ⟨2, 2, 20⟩] [(2, 2), (1, 1)] []) :=
    Option.some.inj (h1.symm.trans (by decide))
  subst e1
  have e2 : s2 = mk [⟨4, 4, 40⟩, ⟨3, 3, 30⟩] [(4, 4), (3, 3)] [(1, 10), (2, 20)] :=
    Option.some.inj (h2.symm.trans (by decide))
  subst e2
  have h0 : StdMap.count 1 [((4 : Nat), (4 : Nat)), (3, 3)] = 0 := by decide
  obtain ⟨s3, g1, g2, g3, g4, g5⟩ := h8 3 30 (by decide) (by decide) (by decide)
  exact ⟨_, _, h1, h2, by decide, by decide, h5, h6, ⟨h0, h7 h0⟩,
    ⟨s3, g1, g2, g3, g4, g5.trans (by decide)⟩⟩

/-- C7. Eviction then promotion returns the original value: for every capacity
of at least one and every list of `CAPACITY + 1` pairs with pairwise distinct
keys put in order into the empty cache with AddToCache, the run is defined and
afterwards `Size() == CAPACITY`, `DirtyCacheSize() == 1`, the dirty index is
exactly the first pair `(k0, v0)` and `Contains(k0)` holds; GetWitnessData(k0)
then returns `v0`, and afterwards `k0` is in the hot index and not in the dirty
index. -/
theorem C7_evict_then_promote (cap : Nat) (hcap : 1 ≤ cap) (k0 : K) (v0 : V)
    (rest : List (K × V)) (hlen : rest.length = cap)
    (hnd : (((k0, v0) :: rest).map Prod.fst).Nodup) :
    ∃ s s1, Op.run cap id id (((k0, v0) :: rest).map (fun e => Op.put e.1 e.2))
        (empty : PrecomputeLRUCache K V) = some s ∧
      Size s = cap ∧ DirtyCacheSize s = 1 ∧ s.mapDirtyWitnessData = [(k0, v0)] ∧
      Contains k0 s = true ∧
      GetWitnessData cap id id k0 s = some (some v0, s1) ∧
      StdMap.count k0 s1.mapCacheLocation > 0 ∧
      StdMap.count k0 s1.mapDirtyWitnessData = 0 := by
  obtain ⟨s, h1, hi, hsz, hd⟩ := Op.puts_overflow hcap id id k0 v0 rest hlen hnd
  have hf : StdMap.find k0 s.mapDirtyWitnessData = some v0 := by
    rw [hd]
    simp [StdMap.find]
  obtain ⟨s1, _, hi1, hg, hd1, hh1⟩ := GetWitnessData_promote hcap hi hf
  refine ⟨s, s1, h1, hsz, by simp [DirtyCacheSize, StdMap.size, hd], hd, ?_, hg, ?_, ?_⟩
  · rw [Contains_iff hi.2.1, lookup_of_not_hot (not_hot_of_dirty hi hf) hi.2.1, hf]
    rfl
  · have hk : k0 ∈ s1.mapCacheLocation.map Prod.fst := by
      rw [mem_keys_loc_iff hi1.2.1]
      unfold hotKeys
      cases hc : s1.cache_list with
      | nil => simp [hc] at hh1
      | cons n t =>
        simp only [hc, List.head?_cons, Option.some.injEq] at hh1
        simp [hh1]
    have := (StdMap.count_ne_zero_iff k0 s1.mapCacheLocation).2 hk
    omega
  · unfold StdMap.count
    simp [hd1]

/-- Instance of C7: capacity 2 and the three pairs of the specification
scenario, K1, K2, K3 in this order. -/
theorem C7_evict_then_promote_witness :
    ∃ s s1, Op.run 2 id id (((1, 10) :: [(2, 20), (3, 30)]).map (fun e => Op.put e.1 e.2))
        (empty : PrecomputeLRUCache Nat Nat) = some s ∧
      Size s = 2 ∧ DirtyCacheSize s = 1 ∧ s.mapDirtyWitnessData = [(1, 10)] ∧
      Contains 1 s = true ∧
      GetWitnessData 2 id id 1 s = some (some 10, s1) ∧
      StdMap.count 1 s1.mapCacheLocation > 0 ∧
      StdMap.count 1 s1.mapDirtyWitnessData = 0 :=
  C7_evict_then_promote 2 (by decide) 1 10 [(2, 20), (3, 30)] (by decide) (by decide)

/-- C8 as stated fails: with capacity 1, after put(1), put(2) and get(1) the
dirty tier holds one entry (the evicted key 2), not zero. -/
theorem C8_dirty_empty_counterexample :
    Option.map DirtyCacheSize
        (Op.run 1 id id [Op.put 1 10, Op.put 2 20, Op.get 1]
          (empty : PrecomputeLRUCache Nat Nat)) = some 1 ∧
      Option.map DirtyCacheSize
        (Op.run 1 id id [Op.put 1 10, Op.put 2 20, Op.get 1]
          (empty : PrecomputeLRUCache Nat Nat)) ≠ some 0 := by
  decide

/-- C8, amended. After the promotion round-trip the dirty tier holds exactly one
entry: for every capacity of at least one, after putting `CAPACITY + 1` pairs
with pairwise distinct keys into the empty cache with AddToCache and then
calling GetWitnessData on the first key, `DirtyCacheSize() == 1` (the promotion
into the full hot tier evicts the least recently used entry). -/
theorem C8_dirty_size_after_round_trip (cap : Nat) (hcap : 1 ≤ cap) (k0 : K) (v0 : V)
    (rest : List (K × V)) (hlen : rest.length = cap)
    (hnd : (((k0, v0) :: rest).map Prod.fst).Nodup) :
    ∃ s r, Op.run cap id id (((k0, v0) :: rest).map (fun e => Op.put e.1 e.2))
        (empty : PrecomputeLRUCache K V) = some s ∧
      GetWitnessData cap id id k0 s = some r ∧ DirtyCacheSize r.2 = 1 := by
  obtain ⟨s, h1, hi, hsz, hd⟩ := Op.puts_overflow hcap id id k0 v0 rest hlen hnd
  have hf : StdMap.find k0 s.mapDirtyWitnessData = some v0 := by
    rw [hd]
    simp [StdMap.find]
  obtain ⟨init, last, _, _, _, hg⟩ := promote_full hcap hi hsz hf
  refine ⟨s, _, h1, hg, ?_⟩
  simp [DirtyCacheSize, StdMap.size, StdMap.assign, StdMap.erase, hd]

/-- Instance of amended C8: capacity 2 and the three pairs of the specification
scenario. -/
theorem C8_dirty_size_after_round_trip_witness :
    ∃ s r, Op.run 2 id id (((1, 10) :: [(2, 20), (3, 30)]).map (fun e => Op.put e.1 e.2))
        (empty : PrecomputeLRUCache Nat Nat) = some s ∧
      GetWitnessData 2 id id 1 s = some r ∧ DirtyCacheSize r.2 = 1 :=
  C8_dirty_size_after_round_trip 2 (by decide) 1 10 [(2, 20), (3, 30)] (by decide)
    (by decide)

/-- C9. Promotion into a full hot tier swaps with the LRU tail: for every
capacity of at least one, every state satisfying the invariants with
`Size() == CAPACITY` and every key `k` held in the dirty index with value `v`,
GetWitnessData(k) returns `v`; the new recency list is `(k, v)` followed by the
old list without its last element `e`; the new dirty index is the old one with
`k` removed and `e` (key and value) added; `Size()` and `DirtyCacheSize()` are
unchanged. -/
theorem C9_promotion_swaps_tail (cap : Nat) (hcap : 1 ≤ cap) (s : PrecomputeLRUCache K V)
    (hi : Inv cap s) (hfull : Size s = cap) (k : K) (v : V)
    (hd : StdMap.find k s.mapDirtyWitnessData = some v) :
    ∃ s1 e, GetWitnessData cap id id k s = some (some v, s1) ∧
      (entries s).getLast? = some e ∧
      entries s1 = (k, v) :: (entries s).dropLast ∧
      s1.mapDirtyWitnessData =
        StdMap.assign e.1 e.2 (StdMap.erase k s.mapDirtyWitnessData) ∧
      Size s1 = Size s ∧ DirtyCacheSize s1 = DirtyCacheSize s := by
  obtain ⟨init, last, hl, hkl, hld, hg⟩ := promote_full hcap hi hfull hd
  obtain ⟨s1, _, hi1, hg1, _, _⟩ := GetWitnessData_promote hcap hi hd
  have hkd : k ∈ s.mapDirtyWitnessData.map Prod.fst :=
    List.mem_map.2 ⟨(k, v), StdMap.mem_of_find_eq_some hd, rfl⟩
  refine ⟨_, (last.first, last.second), hg, ?_, ?_, rfl, ?_, ?_⟩
  · simp [entries, hl]
  · simp [entries, hl]
  · rw [hg] at hg1
    cases hg1
    rw [size_eq_length hi1.2.1, size_eq_length hi.2.1, hl]
    simp
  · unfold DirtyCacheSize StdMap.size StdMap.assign
    have hld2 : last.first ∉ (StdMap.erase k s.mapDirtyWitnessData).map Prod.fst :=
      fun h => hld (StdMap.mem_keys_erase.1 h).1
    simp only [List.length_cons, StdMap.erase_eq_self hld2]
    exact StdMap.length_erase_of_mem hi.1.2.2 hkd

/-- Instance of C9 from the specification: capacity 2, hot tier [K3, K2], dirty
tier {K1 : V1}; get(K1). -/
theorem C9_promotion_swaps_tail_witness :
    ∃ s1 e, GetWitnessData 2 id id 1
        (mk [⟨3, 3, 30⟩, ⟨2, 2, 20⟩] [(3, 3), (2, 2)] [(1, 10)] : PrecomputeLRUCache Nat Nat) =
          some (some 10, s1) ∧
      (entries (mk [⟨3, 3, 30⟩, ⟨2, 2, 20⟩] [(3, 3), (2, 2)] [(1, 10)] :
        PrecomputeLRUCache Nat Nat)).getLast? = some e ∧
      entries s1 = (1, 10) :: (entries (mk [⟨3, 3, 30⟩, ⟨2, 2, 20⟩] [(3, 3), (2, 2)]
        [(1, 10)] : PrecomputeLRUCache Nat Nat)).dropLast ∧
      s1.mapDirtyWitnessData = StdMap.assign e.1 e.2 (StdMap.erase 1 [(1, 10)]) ∧
      Size s1 = Size (mk [⟨3, 3, 30⟩, ⟨2, 2, 20⟩] [(3, 3), (2, 2)] [(1, 10)] :
        PrecomputeLRUCache Nat Nat) ∧
      DirtyCacheSize s1 = DirtyCacheSize (mk [⟨3, 3, 30⟩, ⟨2, 2, 20⟩] [(3, 3), (2, 2)]
        [(1, 10)] : PrecomputeLRUCache Nat Nat) :=
  C9_promotion_swaps_tail 2 (by decide)
    (mk [⟨3, 3, 30⟩, ⟨2, 2, 20⟩] [(3, 3), (2, 2)] [(1, 10)]) (by decide) (by decide) 1 10
    (by decide)

/-- C10. A miss is an absent result that changes nothing: in every state, for a
key that is in neither the hot index nor the dirty index, GetWitnessData returns
the absent (default) result and the state (recency list, hot index, dirty
index, hence `Size()` and `DirtyCacheSize()`) is exactly as before. -/
theorem C10_miss_changes_nothing (cap : Nat) (toData : V → W) (toCache : W → V)
    (s : PrecomputeLRUCache K V) (k : K)
    (hk : StdMap.count k s.mapCacheLocation = 0)
    (hd : StdMap.count k s.mapDirtyWitnessData = 0) :
    ∃ s1, GetWitnessData cap toData toCache k s = some (none, s1) ∧
      s1.cache_list = s.cache_list ∧ s1.mapCacheLocation = s.mapCacheLocation ∧
      s1.mapDirtyWitnessData = s.mapDirtyWitnessData ∧
      Size s1 = Size s ∧ DirtyCacheSize s1 = DirtyCacheSize s := by
  have hk1 : StdMap.find k s.mapCacheLocation = none := by
    rw [StdMap.find_eq_none_iff, ← StdMap.count_ne_zero_iff]
    omega
  have hd1 : StdMap.find k s.mapDirtyWitnessData = none := by
    rw [StdMap.find_eq_none_iff, ← StdMap.count_ne_zero_iff]
    omega
  exact ⟨s, GetWitnessData_miss cap toData toCache hk1 hd1, rfl, rfl, rfl, rfl, rfl⟩

/-- Instance of C10: capacity 2, hot tier holding keys 3 and 2, dirty tier
holding key 1; key 7 is read. -/
theorem C10_miss_changes_nothing_witness :
    ∃ s1, GetWitnessData 2 id id 7
        (mk [⟨3, 3, 30⟩, ⟨2, 2, 20⟩] [(3, 3), (2, 2)] [(1, 10)] : PrecomputeLRUCache Nat Nat) =
          some (none, s1) ∧
      s1.cache_list = [⟨3, 3, 30⟩, ⟨2, 2, 20⟩] ∧ s1.mapCacheLocation = [(3, 3), (2, 2)] ∧
      s1.mapDirtyWitnessData = [(1, 10)] ∧
      Size s1 = Size (mk [⟨3, 3, 30⟩, ⟨2, 2, 20⟩] [(3, 3), (2, 2)] [(1, 10)] :
        PrecomputeLRUCache Nat Nat) ∧
      DirtyCacheSize s1 = DirtyCacheSize (mk [⟨3, 3, 30⟩, ⟨2, 2, 20⟩] [(3, 3), (2, 2)]
        [(1, 10)] : PrecomputeLRUCache Nat Nat) :=
  C10_miss_changes_nothing 2 id id (mk [⟨3, 3, 30⟩, ⟨2, 2, 20⟩] [(3, 3), (2, 2)] [(1, 10)])
    7 (by decide) (by decide)

/-- C11. Remove deletes the key from both tiers and touches nothing else: for
every state satisfying the invariants and every key `k`, Remove(k) is defined
and afterwards `Contains(k)` is false; the recency list is the old list without
the node of `k` (the other nodes in their old order), the dirty index is the old
one without `k`, and every other key has the same hot-index entry, the same hot
value and the same dirty value as before; if `k` was in neither tier the state
is unchanged. -/
theorem C11_remove_frame (cap : Nat) (s : PrecomputeLRUCache K V) (hi : Inv cap s) (k : K) :
    ∃ s1, Remove k s = some s1 ∧ Contains k s1 = false ∧
      s1.cache_list = s.cache_list.filter (fun n => decide (n.first ≠ k)) ∧
      s1.mapDirtyWitnessData = StdMap.erase k s.mapDirtyWitnessData ∧
      (∀ x, x ≠ k →
        StdMap.find x s1.mapCacheLocation = StdMap.find x s.mapCacheLocation ∧
        StdMap.find x (entries s1) = StdMap.find x (entries s) ∧
        StdMap.find x s1.mapDirtyWitnessData = StdMap.find x s.mapDirtyWitnessData) ∧
      (Contains k s = false → s1 = s) := by
  cases hf : StdMap.find k s.mapCacheLocation with
  | none =>
    have hkh : k ∉ hotKeys s := (find_loc_eq_none_iff hi.2.1 k).1 hf
    have hfl : s.cache_list.filter (fun n => decide (n.first ≠ k)) = s.cache_list := by
      rw [List.filter_eq_self]
      intro n hn
      simp only [decide_eq_true_eq]
      exact fun h => hkh (List.mem_map.2 ⟨n, hn, h⟩)
    refine ⟨_, Remove_miss hf, ?_, hfl.symm, rfl, ?_, ?_⟩
    · rw [Contains_eq_false_iff]
      exact ⟨hf, StdMap.find_erase_self _ _⟩
    · intro x hx
      exact ⟨rfl, rfl, StdMap.find_erase_ne hx _⟩
    · intro hc
      rw [Contains_eq_false_iff] at hc
      rw [StdMap.erase_eq_self ((StdMap.find_eq_none_iff _ _).1 hc.2)]
  | some it =>
    obtain ⟨n, hn, rfl, rfl⟩ := (find_loc_eq_some_iff hi.1 hi.2.1 k it).1 hf
    refine ⟨_, Remove_hot hi.1 hi.2.1 hn, ?_,
      StdList.unlink_eq_filter_first hi.1.1 hi.2.1.1 hn, rfl, ?_, ?_⟩
    · rw [Contains_eq_false_iff]
      exact ⟨StdMap.find_erase_self _ _, StdMap.find_erase_self _ _⟩
    · intro x hx
      refine ⟨StdMap.find_erase_ne hx _, ?_, StdMap.find_erase_ne hx _⟩
      unfold entries
      rw [entries_unlink hi.1 hi.2.1 hn]
      exact StdMap.find_erase_ne hx _
    · intro hc
      rw [Contains_eq_false_iff, hf] at hc
      cases hc.1

/-- Instance of C11: capacity 3, hot tier holding keys 3, 2, 4 and dirty tier
holding key 1; the hot key 2 is removed. -/
theorem C11_remove_frame_witness :
    ∃ s1, Remove 2 (mk [⟨3, 3, 30⟩, ⟨2, 2, 20⟩, ⟨4, 4, 40⟩] [(3, 3), (2, 2), (4, 4)]
        [(1, 10)] : PrecomputeLRUCache Nat Nat) = some s1 ∧
      Contains 2 s1 = false ∧
      s1.cache_list = [⟨3, 3, 30⟩, ⟨2, 2, 20⟩, ⟨4, 4, 40⟩].filter
        (fun n => decide (n.first ≠ 2)) ∧
      s1.mapDirtyWitnessData = StdMap.erase 2 [(1, 10)] ∧
      (∀ x, x ≠ 2 →
        StdMap.find x s1.mapCacheLocation = StdMap.find x [(3, 3), (2, 2), (4, 4)] ∧
        StdMap.find x (entries s1) =
          StdMap.find x (entries (mk [⟨3, 3, 30⟩, ⟨2, 2, 20⟩, ⟨4, 4, 40⟩]
            [(3, 3), (2, 2), (4, 4)] [(1, 10)] : PrecomputeLRUCache Nat Nat)) ∧
        StdMap.find x s1.mapDirtyWitnessData = StdMap.find x [(1, 10)]) ∧
      (Contains 2 (mk [⟨3, 3, 30⟩, ⟨2, 2, 20⟩, ⟨4, 4, 40⟩] [(3, 3), (2, 2), (4, 4)]
        [(1, 10)] : PrecomputeLRUCache Nat Nat) = false →
        s1 = mk [⟨3, 3, 30⟩, ⟨2, 2, 20⟩, ⟨4, 4, 40⟩] [(3, 3), (2, 2), (4, 4)] [(1, 10)]) :=
  C11_remove_frame 3 (mk [⟨3, 3, 30⟩, ⟨2, 2, 20⟩, ⟨4, 4, 40⟩] [(3, 3), (2, 2), (4, 4)]
    [(1, 10)]) (by decide) 2

/-- C12. Flush writes every entry exactly once and keeps the hot tier: for
every state satisfying the invariants, the WritePrecompute calls FlushToDisk
appends to the database are the entries of the dirty index followed by the
entries of the recency list with their current values, `Size() +
DirtyCacheSize()` calls in all; a key for which `Contains` held is written
exactly once and no other key is written; afterwards the recency list and the
hot index are unchanged. -/
theorem C12_flush_writes_each_entry_once (cap : Nat) (s : PrecomputeLRUCache K V)
    (hi : Inv cap s) (db : List (K × V)) :
    (FlushToDisk s db).2 = db ++ (FlushToDisk s []).2 ∧
      (FlushToDisk s []).2 = s.mapDirtyWitnessData ++ entries s ∧
      (FlushToDisk s []).2.length = Size s + DirtyCacheSize s ∧
      (∀ k, Contains k s = true → ((FlushToDisk s []).2.map Prod.fst).count k = 1) ∧
      (∀ k, Contains k s = false → ((FlushToDisk s []).2.map Prod.fst).count k = 0) ∧
      (FlushToDisk s db).1.cache_list = s.cache_list ∧
      (FlushToDisk s db).1.mapCacheLocation = s.mapCacheLocation := by
  have hw : (FlushToDisk s []).2 = s.mapDirtyWitnessData ++ entries s := by
    rw [flush_writes, List.nil_append]
  have hk : (entries s).map Prod.fst = hotKeys s := by
    simp [entries, hotKeys, List.map_map, Function.comp_def]
  have hmem : ∀ k, k ∈ (s.mapDirtyWitnessData ++ entries s).map Prod.fst ↔
      Contains k s = true := by
    intro k
    rw [Contains_eq_true_iff, List.map_append, List.mem_append, hk, mem_keys_loc_iff hi.2.1]
    tauto
  refine ⟨?_, hw, ?_, ?_, ?_, rfl, rfl⟩
  · rw [hw, flush_writes]
  · rw [hw, List.length_append, size_eq_length hi.2.1]
    simp only [entries, List.length_map, DirtyCacheSize, StdMap.size]
    omega
  · intro k hc
    rw [hw]
    exact List.count_eq_one_of_mem (nodup_all_keys hi) ((hmem k).2 hc)
  · intro k hc
    rw [hw]
    apply List.count_eq_zero_of_not_mem
    rw [hmem k, hc]
    simp

/-- Instance of C12: capacity 2, hot tier holding keys 3 and 2, dirty tier
holding key 1, flushed into a database that already received one write. -/
theorem C12_flush_writes_each_entry_once_witness :
    (FlushToDisk (mk [⟨3, 3, 30⟩, ⟨2, 2, 20⟩] [(3, 3), (2, 2)] [(1, 10)] :
        PrecomputeLRUCache Nat Nat) [(9, 90)]).2 = [(9, 90), (1, 10), (3, 30), (2, 20)] :=
  ((C12_flush_writes_each_entry_once 2
    (mk [⟨3, 3, 30⟩, ⟨2, 2, 20⟩] [(3, 3), (2, 2)] [(1, 10)]) (by decide) [(9, 90)]).1).trans
    (by decide)

/-- C13 as stated fails on the count of the second flush: in the state AddNew
leaves when called on the hot key 3 (three list nodes, two index entries), the
second of two flushes issues three writes while `Size()` is two. -/
theorem C13_second_flush_count_counterexample :
    Option.map
        (fun s => ((FlushToDisk (FlushToDisk s []).1 []).2, Size (FlushToDisk s []).1))
        (AddNew 2 3 33 (mk [⟨3, 3, 30⟩, ⟨2, 2, 20⟩] [(3, 3), (2, 2)] [(1, 10)] :
          PrecomputeLRUCache Nat Nat)) =
      some ([(3, 33), (3, 30), (2, 20)], 2) := by
  decide

/-- C13, amended. Flush idempotence on the dirty tier: for every state, after
FlushToDisk `DirtyCacheSize() == 0`, and a second FlushToDisk right after it
writes no dirty-tier entry (its writes are exactly the entries of the recency
list, `Size()` of them when the list/index bijection holds) and leaves the state
equal to the state after the first flush. -/
theorem C13_flush_idempotent_on_dirty (s : PrecomputeLRUCache K V) (db : List (K × V)) :
    DirtyCacheSize (FlushToDisk s db).1 = 0 ∧
      (FlushToDisk (FlushToDisk s db).1 (FlushToDisk s db).2).2 =
        (FlushToDisk s db).2 ++ entries (FlushToDisk s db).1 ∧
      (FlushToDisk (FlushToDisk s db).1 (FlushToDisk s db).2).1 = (FlushToDisk s db).1 ∧
      (Bijection s → (entries (FlushToDisk s db).1).length = Size (FlushToDisk s db).1) := by
  refine ⟨rfl, ?_, rfl, ?_⟩
  · rw [flush_writes]
    rfl
  · intro hb
    have h := size_eq_length hb
    simp only [entries, List.length_map]
    exact h.symm

/-- Instance of amended C13: hot tier holding keys 3 and 2, dirty tier holding
key 1, empty database. -/
theorem C13_flush_idempotent_on_dirty_witness :
    (entries (FlushToDisk (mk [⟨3, 3, 30⟩, ⟨2, 2, 20⟩] [(3, 3), (2, 2)] [(1, 10)] :
        PrecomputeLRUCache Nat Nat) []).1).length =
      Size (FlushToDisk (mk [⟨3, 3, 30⟩, ⟨2, 2, 20⟩] [(3, 3), (2, 2)] [(1, 10)] :
        PrecomputeLRUCache Nat Nat) []).1 :=
  (C13_flush_idempotent_on_dirty (mk [⟨3, 3, 30⟩, ⟨2, 2, 20⟩] [(3, 3), (2, 2)] [(1, 10)])
    []).2.2.2 (by decide)

/-- C14. Eviction is the only way into the dirty tier: for every state
satisfying the invariants and every single operation (AddToCache,
GetWitnessData, Remove, FlushToDisk, and Clear as well), the operation is
defined, any key that is in the dirty index afterwards and was not in it before
is the last (least recently used) element of the recency list before the
operation, stored with the value it had in the list, and there is at most one
such key. -/
theorem C14_eviction_only_way_into_dirty (cap : Nat) (toData : V → W) (toCache : W → V)
    (s : PrecomputeLRUCache K V) (hi : Inv cap s) (op : Op K V) :
    ∃ s1, Op.apply cap toData toCache op s = some s1 ∧
      (∀ x d, StdMap.find x s1.mapDirtyWitnessData = some d →
        StdMap.count x s.mapDirtyWitnessData = 0 →
        (entries s).getLast? = some (x, d)) ∧
      (∀ x y, StdMap.count x s1.mapDirtyWitnessData > 0 →
        StdMap.count x s.mapDirtyWitnessData = 0 →
        StdMap.count y s1.mapDirtyWitnessData > 0 →
        StdMap.count y s.mapDirtyWitnessData = 0 → x = y) := by
  obtain ⟨s1, h1, hnew⟩ := apply_dirty_new toData toCache hi op
  have hnew2 : ∀ x d, StdMap.find x s1.mapDirtyWitnessData = some d →
      StdMap.count x s.mapDirtyWitnessData = 0 → (entries s).getLast? = some (x, d) :=
    fun x d hx hc => hnew x d hx ((count_eq_zero_iff_find x _).1 hc)
  refine ⟨s1, h1, hnew2, ?_⟩
  intro x y hx1 hx0 hy1 hy0
  have key : ∀ z, StdMap.count z s1.mapDirtyWitnessData > 0 →
      ∃ d, StdMap.find z s1.mapDirtyWitnessData = some d := by
    intro z hz
    cases hf : StdMap.find z s1.mapDirtyWitnessData with
    | none =>
      have := (count_eq_zero_iff_find z _).2 hf
      omega
    | some d => exact ⟨d, rfl⟩
  obtain ⟨dx, hdx⟩ := key x hx1
  obtain ⟨dy, hdy⟩ := key y hy1
  have e1 := hnew2 x dx hdx hx0
  have e2 := hnew2 y dy hdy hy0
  rw [e1] at e2
  simp only [Option.some.injEq, Prod.mk.injEq] at e2
  exact e2.1

/-- Instance of C14: capacity 2, hot tier [3, 2] full, dirty tier holding key 1;
key 4 is put, which evicts the tail 2. -/
theorem C14_eviction_only_way_into_dirty_witness :
    ∃ s1, Op.apply 2 id id (Op.put 4 40)
        (mk [⟨3, 3, 30⟩, ⟨2, 2, 20⟩] [(3, 3), (2, 2)] [(1, 10)] :
          PrecomputeLRUCache Nat Nat) = some s1 ∧
      (∀ x d, StdMap.find x s1.mapDirtyWitnessData = some d →
        StdMap.count x [(1, 10)] = 0 →
        (entries (mk [⟨3, 3, 30⟩, ⟨2, 2, 20⟩] [(3, 3), (2, 2)] [(1, 10)] :
          PrecomputeLRUCache Nat Nat)).getLast? = some (x, d)) ∧
      (∀ x y, StdMap.count x s1.mapDirtyWitnessData > 0 → StdMap.count x [(1, 10)] = 0 →
        StdMap.count y s1.mapDirtyWitnessData > 0 → StdMap.count y [(1, 10)] = 0 → x = y) :=
  C14_eviction_only_way_into_dirty 2 id id
    (mk [⟨3, 3, 30⟩, ⟨2, 2, 20⟩] [(3, 3), (2, 2)] [(1, 10)]) (by decide) (Op.put 4 40)

/-- C15 as stated fails: in a state satisfying the invariants for capacity 3
whose dirty index holds key 1, Remove(1), AddToCache(1, 11) and Clear each
leave `DirtyCacheSize()` smaller (0 instead of 1). -/
theorem C15_dirty_shrinks_counterexample :
    Inv 3 (mk [⟨3, 3, 30⟩, ⟨2, 2, 20⟩] [(3, 3), (2, 2)] [(1, 10)] :
        PrecomputeLRUCache Nat Nat) ∧
      DirtyCacheSize (mk [⟨3, 3, 30⟩, ⟨2, 2, 20⟩] [(3, 3), (2, 2)] [(1, 10)] :
        PrecomputeLRUCache Nat Nat) = 1 ∧
      Option.map DirtyCacheSize (Remove 1
        (mk [⟨3, 3, 30⟩, ⟨2, 2, 20⟩] [(3, 3), (2, 2)] [(1, 10)] :
          PrecomputeLRUCache Nat Nat)) = some 0 ∧
      Option.map DirtyCacheSize (AddToCache 3 1 11
        (mk [⟨3, 3, 30⟩, ⟨2, 2, 20⟩] [(3, 3), (2, 2)] [(1, 10)] :
          PrecomputeLRUCache Nat Nat)) = some 0 ∧
      DirtyCacheSize (Clear (mk [⟨3, 3, 30⟩, ⟨2, 2, 20⟩] [(3, 3), (2, 2)] [(1, 10)] :
        PrecomputeLRUCache Nat Nat)) = 0 := by
  decide

/-- C15, amended. For every state satisfying the invariants and every single
public operation, the operation is defined, and if `DirtyCacheSize()` is smaller
after it than before, then the operation is FlushToDisk or Clear, or it is a
GetWitnessData, Remove or AddToCache call on a key that was in the dirty index;
so Remove and AddToCache on a key that is not in the dirty index never decrease
`DirtyCacheSize()`. -/
theorem C15_dirty_shrinks_only_by (cap : Nat) (toData : V → W) (toCache : W → V)
    (s : PrecomputeLRUCache K V) (hi : Inv cap s) (op : Op K V) :
    ∃ s1, Op.apply cap toData toCache op s = some s1 ∧
      (DirtyCacheSize s1 < DirtyCacheSize s →
        op = Op.flush ∨ op = Op.clear ∨
          ∃ k, StdMap.count k s.mapDirtyWitnessData > 0 ∧
            (op = Op.get k ∨ op = Op.remove k ∨ ∃ v, op = Op.put k v)) :=
  apply_dirty_size toData toCache hi op

/-- Instance of amended C15: capacity 3, hot tier [3, 2], dirty tier holding key
1; Remove(1) shrinks the dirty tier and its key was in the dirty index. -/
theorem C15_dirty_shrinks_only_by_witness :
    ∃ s1, Op.apply 3 id id (Op.remove 1)
        (mk [⟨3, 3, 30⟩, ⟨2, 2, 20⟩] [(3, 3), (2, 2)] [(1, 10)] :
          PrecomputeLRUCache Nat Nat) = some s1 ∧
      (DirtyCacheSize s1 < DirtyCacheSize (mk [⟨3, 3, 30⟩, ⟨2, 2, 20⟩] [(3, 3), (2, 2)]
          [(1, 10)] : PrecomputeLRUCache Nat Nat) →
        (Op.remove 1 : Op Nat Nat) = Op.flush ∨ (Op.remove 1 : Op Nat Nat) = Op.clear ∨
          ∃ k, StdMap.count k [(1, 10)] > 0 ∧
            ((Op.remove 1 : Op Nat Nat) = Op.get k ∨
              (Op.remove 1 : Op Nat Nat) = Op.remove k ∨
              ∃ v, (Op.remove 1 : Op Nat Nat) = Op.put k v)) :=
  C15_dirty_shrinks_only_by 3 id id
    (mk [⟨3, 3, 30⟩, ⟨2, 2, 20⟩] [(3, 3), (2, 2)] [(1, 10)]) (by decide) (Op.remove 1)

/-- C16. Updating a key that is already hot evicts nothing: for every state
satisfying the invariants and every key `k` in the hot index, AddToCache(k, v)
is defined and afterwards the recency list is `(k, v)` followed by the old
entries other than `k` in their old order, while `Size()`, the hot index and the
dirty index are unchanged. -/
theorem C16_update_hot_evicts_nothing (cap : Nat) (s : PrecomputeLRUCache K V)
    (hi : Inv cap s) (k : K) (v : V) (hk : StdMap.count k s.mapCacheLocation > 0) :
    ∃ s1, AddToCache cap k v s = some s1 ∧
      entries s1 = (k, v) :: (entries s).filter (fun e => decide (e.1 ≠ k)) ∧
      Size s1 = Size s ∧ s1.mapDirtyWitnessData = s.mapDirtyWitnessData ∧
      DirtyCacheSize s1 = DirtyCacheSize s := by
  cases hf : StdMap.find k s.mapCacheLocation with
  | none =>
    have := (count_eq_zero_iff_find k _).2 hf
    omega
  | some it =>
    obtain ⟨s1, h1, hd1, hl1, he1⟩ := AddToCache_hot_dirty hi v hf
    refine ⟨s1, h1, he1, ?_, hd1, ?_⟩
    · simp only [Size, hl1]
    · simp only [DirtyCacheSize, hd1]

/-- Instance of C16: capacity 2, hot tier [3, 2] full, dirty tier holding key 1;
the tail key 2 is updated. -/
theorem C16_update_hot_evicts_nothing_witness :
    ∃ s1, AddToCache 2 2 21
        (mk [⟨3, 3, 30⟩, ⟨2, 2, 20⟩] [(3, 3), (2, 2)] [(1, 10)] :
          PrecomputeLRUCache Nat Nat) = some s1 ∧
      entries s1 = (2, 21) ::
        (entries (mk [⟨3, 3, 30⟩, ⟨2, 2, 20⟩] [(3, 3), (2, 2)] [(1, 10)] :
          PrecomputeLRUCache Nat Nat)).filter (fun e => decide (e.1 ≠ 2)) ∧
      Size s1 = Size (mk [⟨3, 3, 30⟩, ⟨2, 2, 20⟩] [(3, 3), (2, 2)] [(1, 10)] :
        PrecomputeLRUCache Nat Nat) ∧
      s1.mapDirtyWitnessData = [(1, 10)] ∧
      DirtyCacheSize s1 = DirtyCacheSize (mk [⟨3, 3, 30⟩, ⟨2, 2, 20⟩] [(3, 3), (2, 2)]
        [(1, 10)] : PrecomputeLRUCache Nat Nat) :=
  C16_update_hot_evicts_nothing 2 (mk [⟨3, 3, 30⟩, ⟨2, 2, 20⟩] [(3, 3), (2, 2)] [(1, 10)])
    (by decide) 2 21 (by decide)

/-- C17. A hot-tier hit is a pure move-to-front: for every state satisfying the
invariants and every key `k` in the hot index whose list entry holds `v`,
GetWitnessData(k) returns (the conversion of) `v`, and afterwards the recency
list is `(k, v)` followed by the old entries other than `k` in their old order,
while `Size()`, the hot index, the dirty index and `DirtyCacheSize()` are
unchanged. -/
theorem C17_hot_hit_move_to_front (cap : Nat) (toData : V → W) (toCache : W → V)
    (s : PrecomputeLRUCache K V) (hi : Inv cap s) (k : K) (v : V)
    (hk : StdMap.count k s.mapCacheLocation > 0)
    (hv : StdMap.find k (entries s) = some v) :
    ∃ s1, GetWitnessData cap toData toCache k s = some (some (toData v), s1) ∧
      entries s1 = (k, v) :: (entries s).filter (fun e => decide (e.1 ≠ k)) ∧
      Size s1 = Size s ∧ s1.mapCacheLocation = s.mapCacheLocation ∧
      s1.mapDirtyWitnessData = s.mapDirtyWitnessData ∧
      DirtyCacheSize s1 = DirtyCacheSize s := by
  cases hf : StdMap.find k s.mapCacheLocation with
  | none =>
    have := (count_eq_zero_iff_find k _).2 hf
    omega
  | some it =>
    obtain ⟨n, hn, rfl, rfl⟩ := (find_loc_eq_some_iff hi.1 hi.2.1 k it).1 hf
    have hkd : StdMap.find n.first s.mapDirtyWitnessData = none :=
      (StdMap.find_eq_none_iff _ _).2
        (hi.2.2.1 _ ((mem_keys_loc_iff hi.2.1 _).2 (List.mem_map.2 ⟨n, hn, rfl⟩)))
    have hnv : n.second = v := by
      rw [find_entries_of_mem hi.2.1 hn] at hv
      exact Option.some.inj hv
    have hg := GetWitnessData_hot cap toData toCache hi.1 hi.2.1 hn hkd
    rw [hnv] at hg
    refine ⟨_, hg, ?_, rfl, rfl, rfl, rfl⟩
    simp only [entries, List.map_cons]
    rw [entries_unlink hi.1 hi.2.1 hn, hnv]
    rfl

/-- Instance of C17: capacity 2, hot tier [3, 2], dirty tier holding key 1; the
tail key 2 is read. -/
theorem C17_hot_hit_move_to_front_witness :
    ∃ s1, GetWitnessData 2 id id 2
        (mk [⟨3, 3, 30⟩, ⟨2, 2, 20⟩] [(3, 3), (2, 2)] [(1, 10)] :
          PrecomputeLRUCache Nat Nat) = some (some (id 20), s1) ∧
      entries s1 = (2, 20) ::
        (entries (mk [⟨3, 3, 30⟩, ⟨2, 2, 20⟩] [(3, 3), (2, 2)] [(1, 10)] :
          PrecomputeLRUCache Nat Nat)).filter (fun e => decide (e.1 ≠ 2)) ∧
      Size s1 = Size (mk [⟨3, 3, 30⟩, ⟨2, 2, 20⟩] [(3, 3), (2, 2)] [(1, 10)] :
        PrecomputeLRUCache Nat Nat) ∧
      s1.mapCacheLocation = [(3, 3), (2, 2)] ∧ s1.mapDirtyWitnessData = [(1, 10)] ∧
      DirtyCacheSize s1 = DirtyCacheSize (mk [⟨3, 3, 30⟩, ⟨2, 2, 20⟩] [(3, 3), (2, 2)]
        [(1, 10)] : PrecomputeLRUCache Nat Nat) :=
  C17_hot_hit_move_to_front 2 id id (mk [⟨3, 3, 30⟩, ⟨2, 2, 20⟩] [(3, 3), (2, 2)] [(1, 10)])
    (by decide) 2 20 (by decide) (by decide)

/-- C18. Promotion is the put path: for every state satisfying the invariants
that the cache can be in (any such state when CAPACITY is at least one; for
CAPACITY = 0 any state reached from the empty cache by public operations, where
the dirty index is always empty) and every key `k` that is in the dirty index
with value `v` (value conversions taken as the identity), AddToCache(k, v) and
GetWitnessData(k) are defined on that state and lead to the same state, and
GetWitnessData(k) returns `v`. -/
theorem C18_promotion_is_put (cap : Nat) (s : PrecomputeLRUCache K V) (hi : Inv cap s)
    (hreal : 1 ≤ cap ∨
      ∃ ops : List (Op K V), Op.run cap id id ops (empty : PrecomputeLRUCache K V) = some s)
    (k : K) (v : V) (hd : StdMap.find k s.mapDirtyWitnessData = some v) :
    ∃ s1, AddToCache cap k v s = some s1 ∧
      GetWitnessData cap id id k s = some (some v, s1) := by
  have hk := not_hot_of_dirty hi hd
  have hcap : 1 ≤ cap := by
    rcases hreal with h | ⟨ops, hrun⟩
    · exact h
    · by_contra hc
      have hc0 : cap = 0 := by omega
      subst hc0
      have := Op.run_cap_zero_dirty id id ops empty s (inv_empty 0) rfl hrun
      rw [this] at hd
      cases hd
  obtain ⟨s1, h1, _, hg, _, _⟩ := GetWitnessData_promote hcap hi hd
  exact ⟨s1, (AddToCache_eq_AddNew hi v hk).trans h1, hg⟩

/-- Instance of C18: capacity 2 and the state reached by put(1), put(2), put(3)
(hot tier [3, 2] full, dirty tier holding key 1 with value 10); both paths end
in hot [1, 3], dirty {2 : 20}, and the read returns 10. -/
theorem C18_promotion_is_put_witness :
    ∃ s1, AddToCache 2 1 10
        (mk [⟨3, 3, 30⟩, ⟨2, 2, 20⟩] [(3, 3), (2, 2)] [(1, 10)] :
          PrecomputeLRUCache Nat Nat) = some s1 ∧
      GetWitnessData 2 id id 1
        (mk [⟨3, 3, 30⟩, ⟨2, 2, 20⟩] [(3, 3), (2, 2)] [(1, 10)] :
          PrecomputeLRUCache Nat Nat) = some (some 10, s1) :=
  C18_promotion_is_put 2 (mk [⟨3, 3, 30⟩, ⟨2, 2, 20⟩] [(3, 3), (2, 2)] [(1, 10)])
    (by decide) (Or.inr ⟨[Op.put 1 10, Op.put 2 20, Op.put 3 30], by decide⟩) 1 10
    (by decide)

/-- C19. AddNew called directly on a key that is already hot corrupts the hot
tier: for every state satisfying the invariants and every key `k` in the hot
index (with iterator `it`), AddNew(k, v) is defined and afterwards `Size()` is
unchanged while the recency list is one element longer than `Size()` and holds
two entries with key `k`, so the list/index size equality no longer holds; the
hot index still holds `it` for `k`, which designates the older node (a node of
the old list), not the new head. -/
theorem C19_AddNew_on_hot_key_corrupts (cap : Nat) (s : PrecomputeLRUCache K V)
    (hi : Inv cap s) (k : K) (v : V) (it : Nat)
    (hf : StdMap.find k s.mapCacheLocation = some it) :
    ∃ s1, AddNew cap k v s = some s1 ∧ Size s1 = Size s ∧
      s1.cache_list.length = Size s1 + 1 ∧ (hotKeys s1).count k = 2 ∧
      s1.cache_list.length ≠ Size s1 ∧
      StdMap.find k s1.mapCacheLocation = some it ∧
      s1.cache_list.head? = some ⟨StdList.freshId s.cache_list, k, v⟩ ∧
      it ≠ StdList.freshId s.cache_list ∧
      ∃ n, StdList.deref it s1.cache_list = some n ∧ n.first = k ∧ n ∈ s.cache_list := by
  obtain ⟨n, hn, hnk, hnid⟩ := (find_loc_eq_some_iff hi.1 hi.2.1 k it).1 hf
  have hlen := size_eq_length hi.2.1
  have hne : it ≠ StdList.freshId s.cache_list := by
    have := StdList.id_lt_freshId hn
    omega
  have hkh : k ∈ hotKeys s := List.mem_map.2 ⟨n, hn, hnk⟩
  refine ⟨_, AddNew_of_hot v hf hi.2.2.2, rfl, ?_, ?_, ?_, hf, rfl, hne, n, ?_, hnk, hn⟩
  · simp only [StdList.push_front, List.length_cons, Size] at hlen ⊢
    omega
  · simp only [hotKeys, StdList.push_front, List.map_cons, List.count_cons_self]
    have := List.count_eq_one_of_mem hi.2.1.1 hkh
    unfold hotKeys at this
    omega
  · simp only [StdList.push_front, List.length_cons, Size] at hlen ⊢
    omega
  · have hd := StdList.deref_of_mem hi.1.1 hn
    rw [hnid] at hd
    unfold StdList.deref at hd ⊢
    simp only [StdList.push_front]
    rw [List.find?_cons_of_neg _ (by simpa using fun h => hne h.symm)]
    exact hd

/-- Instance of C19: capacity 2, hot tier [3, 2], dirty tier holding key 1;
AddNew is called on the hot key 3. -/
theorem C19_AddNew_on_hot_key_corrupts_witness :
    ∃ s1, AddNew 2 3 33
        (mk [⟨3, 3, 30⟩, ⟨2, 2, 20⟩] [(3, 3), (2, 2)] [(1, 10)] :
          PrecomputeLRUCache Nat Nat) = some s1 ∧
      Size s1 = Size (mk [⟨3, 3, 30⟩, ⟨2, 2, 20⟩] [(3, 3), (2, 2)] [(1, 10)] :
        PrecomputeLRUCache Nat Nat) ∧
      s1.cache_list.length = Size s1 + 1 ∧ (hotKeys s1).count 3 = 2 ∧
      s1.cache_list.length ≠ Size s1 ∧
      StdMap.find 3 s1.mapCacheLocation = some 3 ∧
      s1.cache_list.head? =
        some ⟨StdList.freshId [(⟨3, 3, 30⟩ : Node Nat Nat), ⟨2, 2, 20⟩], 3, 33⟩ ∧
      3 ≠ StdList.freshId [(⟨3, 3, 30⟩ : Node Nat Nat), ⟨2, 2, 20⟩] ∧
      ∃ n, StdList.deref 3 s1.cache_list = some n ∧ n.first = 3 ∧
        n ∈ [(⟨3, 3, 30⟩ : Node Nat Nat), ⟨2, 2, 20⟩] :=
  C19_AddNew_on_hot_key_corrupts 2 (mk [⟨3, 3, 30⟩, ⟨2, 2, 20⟩] [(3, 3), (2, 2)] [(1, 10)])
    (by decide) 3 33 3 (by decide)

/-- C20. No partial operation fails under the invariants: for every state
satisfying the invariants and every key, the eviction step
MoveLastToDirtyIfFull never meets an empty list when the index is over-full
(whatever the threshold), AddNew and, when the key is in the dirty index,
MoveDirtyToLRU (its `at(hash)` lookup) return a state, and every operation
(AddToCache, GetWitnessData, Remove, FlushToDisk, Clear) returns a state that
satisfies the invariants again: the `none` branches of the embedding are never
taken. -/
theorem C20_no_partial_failure (cap : Nat) (toData : V → W) (toCache : W → V)
    (s : PrecomputeLRUCache K V) (hi : Inv cap s) (k : K) :
    (∀ c, ∃ s1, MoveLastToDirtyIfFull c s = some s1) ∧
      (∀ v, ∃ s1, AddNew cap k v s = some s1) ∧
      (StdMap.count k s.mapDirtyWitnessData ≠ 0 →
        ∃ s1, MoveDirtyToLRU cap toData toCache k s = some s1) ∧
      (∀ v, ∃ s1, AddToCache cap k v s = some s1 ∧ Inv cap s1) ∧
      (∃ r, GetWitnessData cap toData toCache k s = some r ∧ Inv cap r.2) ∧
      (∃ s1, Remove k s = some s1 ∧ Inv cap s1) ∧
      (∀ op : Op K V, ∃ s1, Op.apply cap toData toCache op s = some s1 ∧ Inv cap s1) :=
  ⟨fun c => MoveLast_total c hi.2.1, fun v => AddNew_total cap k v s,
    MoveDirtyToLRU_total cap toData toCache k s, fun v => AddToCache_inv hi k v,
    GetWitnessData_inv toData toCache hi k, Remove_inv hi k,
    fun op => Op.apply_inv toData toCache hi op⟩

/-- Instance of C20: capacity 2, hot tier [3, 2] full, dirty tier holding key
1, and the dirty key 1. -/
theorem C20_no_partial_failure_witness :
    (∀ c, ∃ s1, MoveLastToDirtyIfFull c
        (mk [⟨3, 3, 30⟩, ⟨2, 2, 20⟩] [(3, 3), (2, 2)] [(1, 10)] :
          PrecomputeLRUCache Nat Nat) = some s1) ∧
      (∀ v, ∃ s1, AddNew 2 1 v
        (mk [⟨3, 3, 30⟩, ⟨2, 2, 20⟩] [(3, 3), (2, 2)] [(1, 10)] :
          PrecomputeLRUCache Nat Nat) = some s1) ∧
      (StdMap.count 1 [(1, 10)] ≠ 0 →
        ∃ s1, MoveDirtyToLRU 2 id id 1
          (mk [⟨3, 3, 30⟩, ⟨2, 2, 20⟩] [(3, 3), (2, 2)] [(1, 10)] :
            PrecomputeLRUCache Nat Nat) = some s1) ∧
      (∀ v, ∃ s1, AddToCache 2 1 v
        (mk [⟨3, 3, 30⟩, ⟨2, 2, 20⟩] [(3, 3), (2, 2)] [(1, 10)] :
          PrecomputeLRUCache Nat Nat) = some s1 ∧ Inv 2 s1) ∧
      (∃ r, GetWitnessData 2 id id 1
        (mk [⟨3, 3, 30⟩, ⟨2, 2, 20⟩] [(3, 3), (2, 2)] [(1, 10)] :
          PrecomputeLRUCache Nat Nat) = some r ∧ Inv 2 r.2) ∧
      (∃ s1, Remove 1
        (mk [⟨3, 3, 30⟩, ⟨2, 2, 20⟩] [(3, 3), (2, 2)] [(1, 10)] :
          PrecomputeLRUCache Nat Nat) = some s1 ∧ Inv 2 s1) ∧
      (∀ op : Op Nat Nat, ∃ s1, Op.apply 2 id id op
        (mk [⟨3, 3, 30⟩, ⟨2, 2, 20⟩] [(3, 3), (2, 2)] [(1, 10)] :
          PrecomputeLRUCache Nat Nat) = some s1 ∧ Inv 2 s1) :=
  C20_no_partial_failure 2 id id (mk [⟨3, 3, 30⟩, ⟨2, 2, 20⟩] [(3, 3), (2, 2)] [(1, 10)])
    (by decide) 1

end Claims

end Veil
